import Mathlib

/-!
# Verification of the TaskWeaver-AI core scheduling engine

Shallow embedding of `src/core/processor.py` (class `CoreProcessor`) and the
parts of `src/core/models.py` it relies on.

Modelling conventions:

* A Python `datetime.date` is represented by its proleptic Gregorian ordinal
  (`date.toordinal()`), an integer; `date(1,1,1)` has ordinal `1` and is a
  Monday, so Python's `date.weekday()` (Monday = 0 … Sunday = 6) is
  `(d - 1) % 7`.
* The two `while remaining_days > 0` loops of `_add_working_days` and
  `_subtract_working_days` need not terminate (e.g. for an empty
  `working_days` list), so they are embedded with an explicit fuel
  parameter; `none` means the loop has not reached its exit condition
  within `fuel` iterations.  All other loops of the source terminate
  structurally, but the scheduling loop calls the calendar loops, so fuel
  is threaded through it as well and the run result has an explicit
  `diverge` outcome.
* Python dicts preserve insertion order; the `task_map` / `in_degree`
  dicts are built by iterating the plan's task list, so every place where
  the source iterates over dict keys is modelled by iterating the task
  list.  Python `set` iteration order is unspecified; the model fixes the
  first-occurrence order.  No claim depends on that choice.
* `pydantic` enforces at plan construction that task ids are unique and
  that every dependency id names an existing task; theorems about whole
  plans take these as hypotheses.  Where the source would raise `KeyError`
  on a violation the model takes a harmless branch, which is unreachable
  under those hypotheses.
-/

namespace TaskWeaver

/-- Python `date.weekday()`: Monday = 0 … Sunday = 6. -/
def weekday (d : Int) : Int := (d - 1) % 7

/-- `models.Task`, restricted to the fields the core engine reads or
writes (`status`, `section`, `description`, `assignee` are reporting-only
metadata untouched by scheduling). -/
structure Task where
  id : String
  name : String
  dependencies : List String
  start_date : Option Int
  end_date : Option Int
  duration : Option Int
  is_milestone : Bool
deriving Repr, DecidableEq

/-- `models.ProjectPlan`, restricted to the fields the core engine uses. -/
structure ProjectPlan where
  tasks : List Task
  start_date : Option Int
  end_date : Option Int
  working_days : List Int
deriving Repr, DecidableEq

/-- `self.task_map[id]` (dict built over the task list in order; with
unique ids, `find?` returns exactly the dict entry). -/
def lookupTask (tasks : List Task) (id : String) : Option Task :=
  tasks.find? (fun t => t.id = id)

/-- Replace (in place) the task with the id of `t` by `t`; models the
mutation of the `Task` object shared between `task_map` and
`plan.tasks`. -/
def updateTask (tasks : List Task) (t : Task) : List Task :=
  tasks.map (fun u => if u.id = t.id then t else u)

/-- `self.reverse_dependency_graph[id]`: ids of the tasks that depend on
`id`, in task-list order (the source stores a `set`; its iteration order
is unspecified and no claim depends on it). -/
def revDepsOf (tasks : List Task) (id : String) : List String :=
  (tasks.filter (fun t => id ∈ t.dependencies)).map (fun t => t.id)

/-- Lookup in an insertion-ordered dict with integer values
(`self.in_degree[k]`; a missing key would be the source's `KeyError`,
unreachable for the ids the engine queries, and defaults to 0 here). -/
def lookupD (l : List (String × Int)) (k : String) : Int :=
  ((l.find? (fun q => q.1 = k)).map Prod.snd).getD 0

/-- Dict value update, preserving insertion order. -/
def updateD (l : List (String × Int)) (k : String) (v : Int) : List (String × Int) :=
  l.map (fun q => if q.1 = k then (k, v) else q)

/-- Initial `self.in_degree`: the *length* of the dependency list
(`len(task.dependencies)`, line 51 of the source — not the size of the
dependency set), keyed in task-list order. -/
def initialInDeg (tasks : List Task) : List (String × Int) :=
  tasks.map (fun t => (t.id, (t.dependencies.length : Int)))

/-- `self.reverse_dependency_graph` as a dict built at `__init__`,
keyed in task-list order. -/
def revGraph (tasks : List Task) : List (String × List String) :=
  tasks.map (fun t => (t.id, revDepsOf tasks t.id))

/-- `self.reverse_dependency_graph[k]` (missing key: source `KeyError`,
unreachable; defaults to the empty set here). -/
def lookupR (g : List (String × List String)) (k : String) : List String :=
  ((g.find? (fun q => q.1 = k)).map Prod.snd).getD []

/-- `CoreProcessor` state that persists across method calls: the shared
plan, the mutable `in_degree` dict and the `reverse_dependency_graph`
built at `__init__` time. -/
structure Processor where
  plan : ProjectPlan
  inDeg : List (String × Int)
  revD : List (String × List String)
deriving Repr, DecidableEq

/-- `CoreProcessor.__init__` / `_build_data_structures`. -/
def initProcessor (plan : ProjectPlan) : Processor :=
  { plan := plan, inDeg := initialInDeg plan.tasks, revD := revGraph plan.tasks }

/-- `_add_working_days` (lines 168–187): step one calendar day at a time,
decrementing `remaining_days` on working days, until it is `≤ 0`.  Fueled:
`none` means the `while` loop has not exited within `fuel` iterations. -/
def addWorkingDaysF (wd : List Int) (d : Int) (r : Int) (fuel : Nat) : Option Int :=
  if r ≤ 0 then some d
  else
    match fuel with
    | 0 => none
    | f + 1 => addWorkingDaysF wd (d + 1) (if weekday (d + 1) ∈ wd then r - 1 else r) f

/-- `_subtract_working_days` (lines 189–208), the backward-stepping twin. -/
def subWorkingDaysF (wd : List Int) (d : Int) (r : Int) (fuel : Nat) : Option Int :=
  if r ≤ 0 then some d
  else
    match fuel with
    | 0 => none
    | f + 1 => subWorkingDaysF wd (d - 1) (if weekday (d - 1) ∈ wd then r - 1 else r) f

/-- `_count_working_days` (lines 210–232): walk from `s` to `e`
inclusive, counting working days; `0` when `s > e`.  This loop always
terminates (`e + 1 - s` decreases). -/
def countWorkingDaysGo (wd : List Int) : Nat → Int → Nat
  | 0, _ => 0
  | n + 1, s => (if weekday s ∈ wd then 1 else 0) + countWorkingDaysGo wd n (s + 1)

def countWorkingDays (wd : List Int) (s e : Int) : Nat :=
  countWorkingDaysGo wd (e + 1 - s).toNat s

/-- The `latest_end_date` accumulation of `_calculate_task_dates`
(lines 116–121): the latest `end_date` among the dependency tasks that
have one.  A dependency id missing from `task_map` would raise `KeyError`
in the source; plan validity rules that out and the model skips it. -/
def latestDepEnd (tasks : List Task) (deps : List String) : Option Int :=
  deps.foldl
    (fun latest depId =>
      match lookupTask tasks depId with
      | none => latest
      | some dep =>
        match dep.end_date, latest with
        | none, _ => latest
        | some e, none => some e
        | some e, some l => if l < e then some e else some l)
    none

/-- Line 111 of `_calculate_task_dates`: milestones are forced to
duration 0. -/
def milestoneStep (t : Task) : Task :=
  if t.is_milestone then { t with duration := some 0 } else t

/-- Lines 115–124: dependency-derived start date (overrides any prior
start date when some dependency has an end date). -/
def depStartStep (wd : List Int) (tasks : List Task) (t : Task) (fuel : Nat) :
    Option Task :=
  if t.dependencies = [] then some t
  else
    match latestDepEnd tasks t.dependencies with
    | none => some t
    | some le =>
      match addWorkingDaysF wd le 1 fuel with
      | none => none
      | some s => some { t with start_date := some s }

/-- Lines 127–135: derive the missing element of start / end / duration
from the two that are known (priority order of the `elif` chain). -/
def deriveStep (wd : List Int) (t : Task) (fuel : Nat) : Option Task :=
  match t.start_date, t.duration, t.end_date with
  | some s, some dur, _ =>
    (addWorkingDaysF wd s (dur - 1) fuel).map (fun e => { t with end_date := some e })
  | some s, none, some e =>
    some { t with duration := some ((countWorkingDays wd s e : Int) + 1) }
  | none, some dur, some e =>
    (subWorkingDaysF wd e (dur - 1) fuel).map (fun s => { t with start_date := some s })
  | _, _, _ => some t

/-- Lines 138–143: fall back to the plan start date (or today's date)
when no start date could be derived, recomputing the end date if a
duration is known. -/
def fallbackStep (wd : List Int) (planStart : Option Int) (today : Int)
    (t : Task) (fuel : Nat) : Option Task :=
  match t.start_date with
  | some _ => some t
  | none =>
    let s := planStart.getD today
    let t4 := { t with start_date := some s }
    match t4.duration with
    | some dur =>
      (addWorkingDaysF wd s (dur - 1) fuel).map (fun e => { t4 with end_date := some e })
    | none => some t4

/-- `_calculate_task_dates` (lines 103–143), acting on one task given the
current state of all tasks.  Returns the updated task, or `none` when one
of the fueled calendar loops fails to exit. -/
def calcTaskDates (wd : List Int) (planStart : Option Int) (today : Int)
    (tasks : List Task) (t0 : Task) (fuel : Nat) : Option Task :=
  (depStartStep wd tasks (milestoneStep t0) fuel).bind (fun t2 =>
    (deriveStep wd t2 fuel).bind (fun t3 =>
      fallbackStep wd planStart today t3 fuel))

/-- One dependent-update sweep of `calculate_dates` (lines 88–91): for
each dependent, decrement its in-degree and enqueue it when the counter
reaches 0. -/
def stepDependents (inDeg : List (String × Int)) (queue : List String)
    (dependents : List String) : List (String × Int) × List String :=
  dependents.foldl
    (fun p depId =>
      let d := lookupD p.1 depId - 1
      (updateD p.1 depId d,
       if d = 0 then p.2 ++ [depId] else p.2))
    (inDeg, queue)

/-- The `while queue:` loop of `calculate_dates` (lines 76–91), fueled.
Returns the final tasks, the processed ids in processing order, and the
final `in_degree` dict (which persists on the processor).  The
`lookupTask … = none` branch would be a `KeyError` in the source; it is
unreachable for valid plans and modelled as a skip. -/
def kahnLoop (wd : List Int) (planStart : Option Int) (today : Int)
    (revD : List (String × List String)) :
    Nat → List String → List (String × Int) → List Task → List String →
    Option (List Task × List String × List (String × Int))
  | _, [], inDeg, tasks, processed => some (tasks, processed, inDeg)
  | 0, _ :: _, _, _, _ => none
  | fuel + 1, taskId :: rest, inDeg, tasks, processed =>
    if taskId ∈ processed then
      kahnLoop wd planStart today revD fuel rest inDeg tasks processed
    else
      match lookupTask tasks taskId with
      | none => kahnLoop wd planStart today revD fuel rest inDeg tasks processed
      | some task =>
        match calcTaskDates wd planStart today tasks task fuel with
        | none => none
        | some task' =>
          let upd := stepDependents inDeg rest (lookupR revD taskId)
          kahnLoop wd planStart today revD fuel upd.2 upd.1
            (updateTask tasks task') (processed ++ [taskId])

/-- Aggregate minimum of a list (Python `min`), `none` on empty input. -/
def minD (l : List Int) : Option Int :=
  l.foldl (fun a x => match a with | none => some x | some m => some (min m x)) none

/-- Aggregate maximum of a list (Python `max`), `none` on empty input. -/
def maxD (l : List Int) : Option Int :=
  l.foldl (fun a x => match a with | none => some x | some m => some (max m x)) none

/-- `_calculate_project_dates` (lines 145–166). -/
def calcProjectDates (plan : ProjectPlan) : ProjectPlan :=
  if plan.tasks = [] then plan
  else
    let plan1 :=
      match maxD (plan.tasks.filterMap Task.end_date) with
      | some m => { plan with end_date := some m }
      | none => plan
    match minD (plan.tasks.filterMap Task.start_date) with
    | some m => { plan1 with start_date := some m }
    | none => plan1

/-- Outcome of `calculate_dates`: normal return, the
`ValueError("发现循环依赖…")` cycle error carrying the unprocessed task
ids, or divergence of a calendar loop. -/
inductive RunResult where
  | ok (plan : ProjectPlan)
  | cycleError (unprocessed : List String)
  | diverge
deriving Repr, DecidableEq

/-- The seed queue (lines 68–71): ids whose current in-degree is 0, in
`in_degree` dict insertion order. -/
def queueInit (p : Processor) : List String :=
  (p.inDeg.filter (fun q => q.2 = 0)).map Prod.fst

/-- The whole Kahn pass of `calculate_dates` as invoked on a processor. -/
def kahnRun (p : Processor) (today : Int) (fuel : Nat) :
    Option (List Task × List String × List (String × Int)) :=
  kahnLoop p.plan.working_days p.plan.start_date today p.revD
    fuel (queueInit p) p.inDeg p.plan.tasks []

/-- `calculate_dates` (lines 58–101) on a processor; returns the result
together with the post-call processor state (the source mutates
`self.project_plan` and `self.in_degree` in place).  The processor state
accompanying `diverge` is never observed by a caller (the source would
simply not return). -/
def Processor.calculateDates (p : Processor) (today : Int) (fuel : Nat) :
    RunResult × Processor :=
  match kahnRun p today fuel with
  | none => (.diverge, p)
  | some (tasks', processed, inDeg') =>
    let p' : Processor := { plan := { p.plan with tasks := tasks' }, inDeg := inDeg', revD := p.revD }
    if processed.length = p.plan.tasks.length then
      let plan2 := calcProjectDates p'.plan
      (.ok plan2, { p' with plan := plan2 })
    else
      (.cycleError ((tasks'.map (fun t => t.id)).filter (fun id => id ∉ processed)), p')

/-- The `while queue:` loop of `_topological_sort` (lines 340–347),
fueled (its termination depends on the in-degree state). -/
def topoLoop (revD : List (String × List String)) :
    Nat → List String → List (String × Int) → List String → Option (List String)
  | _, [], _, result => some result
  | 0, _ :: _, _, _ => none
  | fuel + 1, taskId :: rest, inDeg, result =>
    let upd := stepDependents inDeg rest (lookupR revD taskId)
    topoLoop revD fuel upd.2 upd.1 (result ++ [taskId])

/-- `_topological_sort` (lines 326–349): seeds from a copy of the
*current* `self.in_degree` dict, in insertion (= task-list) order. -/
def topologicalSort (p : Processor) (fuel : Nat) : Option (List String) :=
  topoLoop p.revD fuel (queueInit p) p.inDeg []

/-- Dict lookup in the `earliest_start` / `latest_start` association
lists. -/
def lookupAL (l : List (String × Int)) (id : String) : Option Int :=
  (l.find? (fun q => q.1 = id)).map (fun q => q.2)

/-- `max(self.task_map[dep_id].end_date for dep_id in task.dependencies)`
(lines 293–296).  When a dependency lacks an `end_date` the source either
raises while comparing `None` or returns `None` and raises at the
subsequent date addition; the model aborts (`none`) in all those cases. -/
def maxDepEnd (tasks : List Task) (deps : List String) : Option Int :=
  (deps.mapM (fun d => (lookupTask tasks d).bind Task.end_date)).bind maxD

/-- Forward CPM pass of `get_critical_path` (lines 286–297), building
`earliest_start` in visitation order.  A task without dependencies whose
`start_date` is unresolved would make the source store `None` and fail at
the first comparison involving it; the model aborts there instead.  After
a successful `calculate_dates` run this branch is unreachable. -/
def forwardPass (wd : List Int) (tasks : List Task) (fuel : Nat) :
    List String → List (String × Int) → Option (List (String × Int))
  | [], es => some es
  | id :: rest, es =>
    match lookupTask tasks id with
    | none => none
    | some t =>
      if t.dependencies = [] then
        match t.start_date with
        | some s => forwardPass wd tasks fuel rest (es ++ [(id, s)])
        | none => none
      else
        match maxDepEnd tasks t.dependencies with
        | none => none
        | some m =>
          match addWorkingDaysF wd m 1 fuel with
          | none => none
          | some s => forwardPass wd tasks fuel rest (es ++ [(id, s)])

/-- `min(latest_start[dep_id] for dep_id in reverse_dependency_graph[id])`
(lines 310–313); a missing key is the source's `KeyError`, modelled as
`none`. -/
def minLatest (ls : List (String × Int)) (dependents : List String) : Option Int :=
  (dependents.mapM (lookupAL ls)).bind minD

/-- Backward CPM pass of `get_critical_path` (lines 300–316), visiting
the reversed topological order and building `latest_start`.  A `none`
duration would make the source's `while None > 0` raise; modelled as
abort. -/
def backwardPass (wd : List Int) (tasks : List Task)
    (revD : List (String × List String)) (fuel : Nat) :
    List String → List (String × Int) → List (String × Int) →
    Option (List (String × Int))
  | [], _, ls => some ls
  | id :: rest, es, ls =>
    match lookupTask tasks id with
    | none => none
    | some t =>
      if lookupR revD id = [] then
        match lookupAL es id with
        | some e => backwardPass wd tasks revD fuel rest es (ls ++ [(id, e)])
        | none => none
      else
        match minLatest ls (lookupR revD id) with
        | none => none
        | some m =>
          match t.duration with
          | none => none
          | some dur =>
            match subWorkingDaysF wd m dur fuel with
            | none => none
            | some s => backwardPass wd tasks revD fuel rest es (ls ++ [(id, s)])

/-- The two CPM passes of `get_critical_path` (lines 282–316), returning
the `earliest_start` and `latest_start` dicts. -/
def cpmPasses (p : Processor) (fuel : Nat) :
    Option (List (String × Int) × List (String × Int)) :=
  match topologicalSort p fuel with
  | none => none
  | some topo =>
    match forwardPass p.plan.working_days p.plan.tasks fuel topo [] with
    | none => none
    | some es =>
      match backwardPass p.plan.working_days p.plan.tasks p.revD fuel topo.reverse es [] with
      | none => none
      | some ls => some (es, ls)

/-- The zero-float filter of `get_critical_path` (lines 319–324): iterate
`earliest_start` in insertion order and return the task objects whose
earliest start equals their latest start. -/
def criticalFilter (tasks : List Task) (es ls : List (String × Int)) : List Task :=
  (es.map Prod.fst).filterMap (fun id =>
    if lookupAL es id = lookupAL ls id then lookupTask tasks id else none)

/-- `get_critical_path` (lines 273–324). -/
def getCriticalPath (p : Processor) (fuel : Nat) : Option (List Task) :=
  (cpmPasses p fuel).map (fun el => criticalFilter p.plan.tasks el.1 el.2)

/-- The per-task diagnostics of `validate_plan` (lines 248–258).  The
source's messages are Chinese f-strings interpolating the task name and
id; only their presence matters to the claims, so the model uses plain
ASCII text carrying the task id. -/
def validationErrors (tasks : List Task) : List String :=
  tasks.foldl
    (fun acc t =>
      let acc1 :=
        if t.start_date = none ∧ t.duration = none ∧ t.dependencies = []
        then acc ++ ["task " ++ t.id ++ " lacks basic time information"]
        else acc
      match t.start_date, t.end_date with
      | some s, some e =>
        if e < s then acc1 ++ ["task " ++ t.id ++ " starts after it ends"] else acc1
      | _, _ => acc1)
    []

/-- The cycle diagnostic surfaced by `validate_plan` (line 266). -/
def cycleMessage (un : List String) : String :=
  "cycle detected among tasks: " ++ String.intercalate ", " un

/-- `validate_plan` (lines 234–271).  The cycle check (lines 260–269)
constructs a *new* `CoreProcessor` over `self.project_plan` — the same
plan object, not a copy — and runs a full scheduling pass on it, so the
caller's task records are mutated; the post-call plan is returned
alongside the diagnostics.  `none` models divergence of the trial run
(the source would hang). -/
def Processor.validatePlan (p : Processor) (today : Int) (fuel : Nat) :
    Option (List String × Processor) :=
  if p.plan.tasks = [] then some (["no tasks in the project plan"], p)
  else
    let errors := validationErrors p.plan.tasks
    let temp := initProcessor p.plan
    match temp.calculateDates today fuel with
    | (.ok _, temp') => some (errors, { p with plan := temp'.plan })
    | (.cycleError un, temp') => some (errors ++ [cycleMessage un], { p with plan := temp'.plan })
    | (.diverge, _) => none

/-! ## Specification-side notions used to state the claims -/

/-- Working days among the dates of `Finset.Ico a b` (used to specify the
calendar loops). -/
def countWD (wd : List Int) (a b : Int) : Nat :=
  ((Finset.Ico a b).filter (fun x => weekday x ∈ wd)).card

/-- The id/dependency skeleton of a task list: everything scheduling is
allowed to read of the graph structure, and everything it never writes. -/
def skeleton (tasks : List Task) : List (String × List String) :=
  tasks.map (fun t => (t.id, t.dependencies))

/-- The ids of a task list, in order. -/
def idsOf (tasks : List Task) : List String := tasks.map Task.id

/-- The invariants `pydantic` enforces when a `ProjectPlan` is built:
task ids are unique, and every dependency id names a task of the plan. -/
def ValidPlan (plan : ProjectPlan) : Prop :=
  (idsOf plan.tasks).Nodup ∧
  ∀ t ∈ plan.tasks, ∀ d ∈ t.dependencies, ∃ u ∈ plan.tasks, u.id = d

/-- A nonempty set of task ids each of which depends on another member of
the set.  A finite graph has such a set exactly when it has a directed
dependency cycle (walk the in-set successors until one repeats), so this
is the model's rendering of "the dependency graph contains a cycle". -/
def CycleSet (tasks : List Task) (S : List String) : Prop :=
  S ≠ [] ∧ ∀ id ∈ S, ∃ t ∈ tasks, t.id = id ∧ ∃ d ∈ t.dependencies, d ∈ S

/-- The dependency list of the task with a given id (empty for a
missing id). -/
def depsOf (tasks : List Task) (id : String) : List String :=
  match lookupTask tasks id with
  | some t => t.dependencies
  | none => []

/-- The tasks Kahn's algorithm can drain: `id` is schedulable when its
dependency list has no duplicates (the source counts `in_degree` by list
length but decrements once per distinct dependency) and all its
dependencies are schedulable.  A task on a cycle is never `Done`. -/
inductive Done (tasks : List Task) : String → Prop where
  | step : ∀ (id : String) (t : Task), lookupTask tasks id = some t →
      t.dependencies.Nodup → (∀ d ∈ t.dependencies, Done tasks d) → Done tasks id

/-- `addWorkingDaysF` returns `e` at some fuel (i.e. the source's
`_add_working_days` terminates with value `e`). -/
def AddSpec (wd : List Int) (d : Int) (n : Int) (e : Int) : Prop :=
  ∃ f, addWorkingDaysF wd d n f = some e

/-- A fully-dated task whose fields already agree with everything
`_calculate_task_dates` would recompute for it: duration 0 for
milestones, end date reachable from the start date by `duration - 1`
working days, and start date one working day after the latest dependency
end (when dependencies exist). -/
def TaskConsistent (wd : List Int) (tasks : List Task) (t : Task) : Prop :=
  ∃ s e dur, t.start_date = some s ∧ t.end_date = some e ∧ t.duration = some dur ∧
    (t.is_milestone = true → dur = 0) ∧
    AddSpec wd s (dur - 1) e ∧
    (∀ le, latestDepEnd tasks t.dependencies = some le → AddSpec wd le 1 s)

/-- Every task of the plan is fully dated and internally consistent. -/
def ConsistentPlan (plan : ProjectPlan) : Prop :=
  ∀ t ∈ plan.tasks, TaskConsistent plan.working_days plan.tasks t

/-- Number of task-list entries not yet processed (termination measure of
the scheduling loop). -/
def measureU (tasks : List Task) (processed : List String) : Nat :=
  ((idsOf tasks).filter (fun id => id ∉ processed)).length

/-- `calculate_dates` never returns on this input, whatever the fuel:
the model's rendering of "the run does not terminate". -/
def DivergesForAllFuel (plan : ProjectPlan) (today : Int) : Prop :=
  ∀ fuel, ((initProcessor plan).calculateDates today fuel).1 = .diverge

/-- The working-day list contains at least one real weekday, which is
what the stepping loops need in order to terminate. -/
def HasValidWorkingDay (wd : List Int) : Prop :=
  ∃ w ∈ wd, 0 ≤ w ∧ w < 7

/-! ## Concrete plans used by the scenario claim, witnesses and
counterexamples.

Int ordinals: `2024-01-01` (a Monday) has Python ordinal 738886;
`2024-01-05` (Fri) is 738890, `2024-01-06` (Sat) 738891, `2024-01-08`
(Mon) 738893, `2024-01-10` (Wed) 738895, `2024-01-11` (Thu) 738896. -/

/-- Monday-to-Friday working days, the model default of
`ProjectPlan.working_days`. -/
def wdMonFri : List Int := [0, 1, 2, 3, 4]

/-- Build a task whose name is its id (the engine never reads the name). -/
def mkTask (id : String) (deps : List String) (s e : Option Int)
    (dur : Option Int) (mile : Bool) : Task :=
  { id := id, name := id, dependencies := deps, start_date := s, end_date := e,
    duration := dur, is_milestone := mile }

/-- The spec's scenario plan: `A(no deps, start 2024-01-01, duration 5)`,
`B(dep A, duration 3)`, `M(milestone, dep B)`. -/
def scenarioPlan : ProjectPlan :=
  { tasks := [mkTask "A" [] (some 738886) none (some 5) false,
              mkTask "B" ["A"] none none (some 3) false,
              mkTask "M" ["B"] none none (some 0) true],
    start_date := none, end_date := none, working_days := wdMonFri }

/-- The scenario run (`today` is irrelevant: every task is reachable from
A's explicit start date). -/
def scenarioRun : RunResult × Processor :=
  (initProcessor scenarioPlan).calculateDates 0 40

/-- A fully-dated but internally inconsistent plan: T claims duration 2
but start and end on the same Monday. -/
def c5Plan : ProjectPlan :=
  { tasks := [mkTask "T" [] (some 738886) (some 738886) (some 2) false],
    start_date := none, end_date := none, working_days := wdMonFri }

/-- A consistent one-task plan (Mon 2024-01-01 to Tue 2024-01-02,
duration 2) for the idempotence witness. -/
def c5WitnessPlan : ProjectPlan :=
  { tasks := [mkTask "T" [] (some 738886) (some 738887) (some 2) false],
    start_date := none, end_date := none, working_days := wdMonFri }

/-- B starts on a Saturday; milestone M follows it.  B's backward-pass
latest start lands on the previous Friday, *before* its earliest start. -/
def c6Plan : ProjectPlan :=
  { tasks := [mkTask "B" [] (some 738891) none (some 1) false,
              mkTask "M" ["B"] none none (some 0) true],
    start_date := none, end_date := none, working_days := wdMonFri }

/-- The processor state after scheduling `c6Plan`. -/
def c6Run : RunResult × Processor :=
  (initProcessor c6Plan).calculateDates 0 40

/-- A plan with a datable task: V has a start date and duration, so
`validate_plan`'s trial scheduling run fills in `V.end_date` on the
caller's plan. -/
def c7Plan : ProjectPlan :=
  { tasks := [mkTask "V" [] (some 738886) none (some 2) false],
    start_date := none, end_date := none, working_days := wdMonFri }

/-- One datable task but an empty working-day list: `_add_working_days`
never exits. -/
def c8Plan : ProjectPlan :=
  { tasks := [mkTask "V" [] (some 738886) none (some 2) false],
    start_date := none, end_date := none, working_days := [] }

/-- A cycle `A ↔ B` plus a datable task V, with an empty working-day
list: V is processed first and hangs, so the cycle error is never
raised. -/
def c2CexPlan : ProjectPlan :=
  { tasks := [mkTask "V" [] (some 738886) none (some 2) false,
              mkTask "A" ["B"] none none (some 1) false,
              mkTask "B" ["A"] none none (some 1) false],
    start_date := none, end_date := none, working_days := [] }

/-- The spec's three-task cycle (A depends on C, B on A, C on B), used as
the C2 witness. -/
def c2WitnessPlan : ProjectPlan :=
  { tasks := [mkTask "A" ["C"] none none (some 1) false,
              mkTask "B" ["A"] none none (some 1) false,
              mkTask "C" ["B"] none none (some 1) false],
    start_date := none, end_date := none, working_days := wdMonFri }

/-- A task carrying only a start date: scheduling succeeds but leaves its
`end_date` and `duration` unresolved. -/
def c9Plan : ProjectPlan :=
  { tasks := [mkTask "T" [] (some 738886) none none false],
    start_date := none, end_date := none, working_days := wdMonFri }

/-- A lone milestone task (for the C3 witness). -/
def c3WitnessPlan : ProjectPlan :=
  { tasks := [mkTask "M" [] none none (some 0) true],
    start_date := some 738886, end_date := none, working_days := wdMonFri }

/-! ## Calendar lemmas -/

theorem addWorkingDaysF_eq (wd : List Int) (d : Int) (r : Int) (fuel : Nat) :
    addWorkingDaysF wd d r fuel =
      if r ≤ 0 then some d
      else
        match fuel with
        | 0 => none
        | f + 1 =>
          addWorkingDaysF wd (d + 1) (if weekday (d + 1) ∈ wd then r - 1 else r) f := by
  cases fuel <;> rfl

theorem subWorkingDaysF_eq (wd : List Int) (d : Int) (r : Int) (fuel : Nat) :
    subWorkingDaysF wd d r fuel =
      if r ≤ 0 then some d
      else
        match fuel with
        | 0 => none
        | f + 1 =>
          subWorkingDaysF wd (d - 1) (if weekday (d - 1) ∈ wd then r - 1 else r) f := by
  cases fuel <;> rfl

theorem addWorkingDaysF_nonpos (wd : List Int) (d : Int) (r : Int) (fuel : Nat)
    (h : r ≤ 0) : addWorkingDaysF wd d r fuel = some d := by
  rw [addWorkingDaysF_eq]
  simp [h]

theorem subWorkingDaysF_nonpos (wd : List Int) (d : Int) (r : Int) (fuel : Nat)
    (h : r ≤ 0) : subWorkingDaysF wd d r fuel = some d := by
  rw [subWorkingDaysF_eq]
  simp [h]

theorem countWD_single (wd : List Int) (a : Int) :
    countWD wd a (a + 1) = if weekday a ∈ wd then 1 else 0 := by
  unfold countWD
  have h : Finset.Ico a (a + 1) = {a} := by
    ext x
    simp only [Finset.mem_Ico, Finset.mem_singleton]
    omega
  rw [h, Finset.filter_singleton]
  split <;> simp

theorem countWD_empty (wd : List Int) {a b : Int} (h : b ≤ a) : countWD wd a b = 0 := by
  unfold countWD
  rw [Finset.Ico_eq_empty (by omega)]
  simp

theorem countWD_split (wd : List Int) {a b c : Int} (h1 : a ≤ b) (h2 : b ≤ c) :
    countWD wd a c = countWD wd a b + countWD wd b c := by
  unfold countWD
  rw [← Finset.Ico_union_Ico_eq_Ico h1 h2, Finset.filter_union,
    Finset.card_union_of_disjoint]
  exact Finset.disjoint_filter_filter (Finset.Ico_disjoint_Ico_consecutive a b c)

theorem countWD_cons (wd : List Int) {a b : Int} (h : a < b) :
    countWD wd a b = (if weekday a ∈ wd then 1 else 0) + countWD wd (a + 1) b := by
  rw [countWD_split wd (show a ≤ a + 1 by omega) (by omega), countWD_single]

theorem countWD_pos (wd : List Int) {a b : Int} (ha : weekday a ∈ wd) (hab : a < b) :
    0 < countWD wd a b := by
  apply Finset.card_pos.mpr
  exact ⟨a, Finset.mem_filter.mpr ⟨Finset.mem_Ico.mpr ⟨le_refl a, hab⟩, ha⟩⟩

theorem addWorkingDaysF_spec (wd : List Int) :
    ∀ (fuel : Nat) (d : Int) (r : Int) (e : Int),
      addWorkingDaysF wd d r fuel = some e →
      (r ≤ 0 ∧ e = d) ∨
      (0 < r ∧ d < e ∧ weekday e ∈ wd ∧ (countWD wd (d + 1) (e + 1) : Int) = r) := by
  intro fuel
  induction fuel with
  | zero =>
    intro d r e h
    rw [addWorkingDaysF_eq] at h
    by_cases hr : r ≤ 0
    · simp only [if_pos hr, Option.some.injEq] at h
      exact Or.inl ⟨hr, h.symm⟩
    · simp [hr] at h
  | succ f ih =>
    intro d r e h
    rw [addWorkingDaysF_eq] at h
    by_cases hr : r ≤ 0
    · simp only [if_pos hr, Option.some.injEq] at h
      exact Or.inl ⟨hr, h.symm⟩
    · rw [if_neg hr] at h
      replace h : addWorkingDaysF wd (d + 1)
          (if weekday (d + 1) ∈ wd then r - 1 else r) f = some e := h
      by_cases hw : weekday (d + 1) ∈ wd
      · rw [if_pos hw] at h
        rcases ih (d + 1) (r - 1) e h with ⟨h1, h2⟩ | ⟨h1, h2, h3, h4⟩
        · subst h2
          refine Or.inr ⟨by omega, by omega, hw, ?_⟩
          rw [countWD_cons wd (show d + 1 < d + 1 + 1 by omega),
            countWD_empty wd (le_refl (d + 1 + 1))]
          simp [hw]
          omega
        · refine Or.inr ⟨by omega, by omega, h3, ?_⟩
          rw [countWD_cons wd (show d + 1 < e + 1 by omega)]
          push_cast
          rw [if_pos hw]
          omega
      · rw [if_neg hw] at h
        rcases ih (d + 1) r e h with ⟨h1, _⟩ | ⟨h1, h2, h3, h4⟩
        · exact absurd h1 hr
        · refine Or.inr ⟨h1, by omega, h3, ?_⟩
          rw [countWD_cons wd (show d + 1 < e + 1 by omega)]
          push_cast
          rw [if_neg hw]
          omega

theorem subWorkingDaysF_spec (wd : List Int) :
    ∀ (fuel : Nat) (d : Int) (r : Int) (e : Int),
      subWorkingDaysF wd d r fuel = some e →
      (r ≤ 0 ∧ e = d) ∨
      (0 < r ∧ e < d ∧ weekday e ∈ wd ∧ (countWD wd e d : Int) = r) := by
  intro fuel
  induction fuel with
  | zero =>
    intro d r e h
    rw [subWorkingDaysF_eq] at h
    by_cases hr : r ≤ 0
    · simp only [if_pos hr, Option.some.injEq] at h
      exact Or.inl ⟨hr, h.symm⟩
    · simp [hr] at h
  | succ f ih =>
    intro d r e h
    rw [subWorkingDaysF_eq] at h
    by_cases hr : r ≤ 0
    · simp only [if_pos hr, Option.some.injEq] at h
      exact Or.inl ⟨hr, h.symm⟩
    · rw [if_neg hr] at h
      replace h : subWorkingDaysF wd (d - 1)
          (if weekday (d - 1) ∈ wd then r - 1 else r) f = some e := h
      by_cases hw : weekday (d - 1) ∈ wd
      · rw [if_pos hw] at h
        rcases ih (d - 1) (r - 1) e h with ⟨h1, h2⟩ | ⟨h1, h2, h3, h4⟩
        · subst h2
          refine Or.inr ⟨by omega, by omega, hw, ?_⟩
          rw [countWD_cons wd (show d - 1 < d by omega),
            countWD_empty wd (show d ≤ d - 1 + 1 by omega)]
          simp [hw]
          omega
        · refine Or.inr ⟨by omega, by omega, h3, ?_⟩
          rw [countWD_split wd (show e ≤ d - 1 by omega) (show d - 1 ≤ d by omega),
            countWD_cons wd (show d - 1 < d by omega),
            countWD_empty wd (show d ≤ d - 1 + 1 by omega)]
          push_cast
          rw [if_pos hw]
          omega
      · rw [if_neg hw] at h
        rcases ih (d - 1) r e h with ⟨h1, _⟩ | ⟨h1, h2, h3, h4⟩
        · exact absurd h1 hr
        · refine Or.inr ⟨h1, by omega, h3, ?_⟩
          rw [countWD_split wd (show e ≤ d - 1 by omega) (show d - 1 ≤ d by omega),
            countWD_cons wd (show d - 1 < d by omega),
            countWD_empty wd (show d ≤ d - 1 + 1 by omega)]
          push_cast
          rw [if_neg hw]
          omega

theorem countWD_left_inj (wd : List Int) {a b c : Int} (ha : weekday a ∈ wd)
    (hb : weekday b ∈ wd) (hac : a < c) (hbc : b < c)
    (h : countWD wd a c = countWD wd b c) : a = b := by
  rcases lt_trichotomy a b with hab | hab | hab
  · exfalso
    rw [countWD_split wd (le_of_lt hab) (le_of_lt hbc)] at h
    have := countWD_pos wd ha hab
    omega
  · exact hab
  · exfalso
    rw [countWD_split wd (le_of_lt hab) (le_of_lt hac)] at h
    have := countWD_pos wd hb hab
    omega

theorem addWorkingDaysF_mono (wd : List Int) :
    ∀ (f f' : Nat) (d r e : Int), f ≤ f' →
      addWorkingDaysF wd d r f = some e → addWorkingDaysF wd d r f' = some e := by
  intro f
  induction f with
  | zero =>
    intro f' d r e _ h
    rw [addWorkingDaysF_eq] at h
    by_cases hr : r ≤ 0
    · simp only [if_pos hr, Option.some.injEq] at h
      subst h
      exact addWorkingDaysF_nonpos _ _ _ _ hr
    · simp [hr] at h
  | succ f ih =>
    intro f' d r e hle h
    rw [addWorkingDaysF_eq] at h
    by_cases hr : r ≤ 0
    · simp only [if_pos hr, Option.some.injEq] at h
      subst h
      exact addWorkingDaysF_nonpos _ _ _ _ hr
    · rw [if_neg hr] at h
      replace h : addWorkingDaysF wd (d + 1)
          (if weekday (d + 1) ∈ wd then r - 1 else r) f = some e := h
      obtain ⟨f'', rfl⟩ : ∃ f'', f' = f'' + 1 := ⟨f' - 1, by omega⟩
      rw [addWorkingDaysF_eq, if_neg hr]
      exact ih f'' _ _ _ (by omega) h

theorem subWorkingDaysF_mono (wd : List Int) :
    ∀ (f f' : Nat) (d r e : Int), f ≤ f' →
      subWorkingDaysF wd d r f = some e → subWorkingDaysF wd d r f' = some e := by
  intro f
  induction f with
  | zero =>
    intro f' d r e _ h
    rw [subWorkingDaysF_eq] at h
    by_cases hr : r ≤ 0
    · simp only [if_pos hr, Option.some.injEq] at h
      subst h
      exact subWorkingDaysF_nonpos _ _ _ _ hr
    · simp [hr] at h
  | succ f ih =>
    intro f' d r e hle h
    rw [subWorkingDaysF_eq] at h
    by_cases hr : r ≤ 0
    · simp only [if_pos hr, Option.some.injEq] at h
      subst h
      exact subWorkingDaysF_nonpos _ _ _ _ hr
    · rw [if_neg hr] at h
      replace h : subWorkingDaysF wd (d - 1)
          (if weekday (d - 1) ∈ wd then r - 1 else r) f = some e := h
      obtain ⟨f'', rfl⟩ : ∃ f'', f' = f'' + 1 := ⟨f' - 1, by omega⟩
      rw [subWorkingDaysF_eq, if_neg hr]
      exact ih f'' _ _ _ (by omega) h

theorem addWorkingDaysF_unique (wd : List Int) {f f' : Nat} {d r e e' : Int}
    (h : addWorkingDaysF wd d r f = some e)
    (h' : addWorkingDaysF wd d r f' = some e') : e = e' := by
  rcases Nat.le_total f f' with hle | hle
  · have h2 := addWorkingDaysF_mono wd f f' d r e hle h
    rw [h2] at h'
    exact Option.some.inj h'
  · have h2 := addWorkingDaysF_mono wd f' f d r e' hle h'
    rw [h2] at h
    exact (Option.some.inj h).symm

theorem subWorkingDaysF_unique (wd : List Int) {f f' : Nat} {d r e e' : Int}
    (h : subWorkingDaysF wd d r f = some e)
    (h' : subWorkingDaysF wd d r f' = some e') : e = e' := by
  rcases Nat.le_total f f' with hle | hle
  · have h2 := subWorkingDaysF_mono wd f f' d r e hle h
    rw [h2] at h'
    exact Option.some.inj h'
  · have h2 := subWorkingDaysF_mono wd f' f d r e' hle h'
    rw [h2] at h
    exact (Option.some.inj h).symm

theorem addWorkingDaysF_total (wd : List Int) (hv : HasValidWorkingDay wd) :
    ∀ (r d : Int), ∃ f e, addWorkingDaysF wd d r f = some e := by
  obtain ⟨w, hw, hw0, hw7⟩ := hv
  suffices h : ∀ (n : Nat) (r : Int), r.toNat ≤ n → ∀ d, ∃ f e,
      addWorkingDaysF wd d r f = some e by
    intro r d
    exact h r.toNat r le_rfl d
  intro n
  induction n with
  | zero =>
    intro r hr d
    exact ⟨0, d, addWorkingDaysF_nonpos _ _ _ _ (by omega)⟩
  | succ n ihn =>
    intro r hr d
    by_cases hr0 : r ≤ 0
    · exact ⟨0, d, addWorkingDaysF_nonpos _ _ _ _ hr0⟩
    · have inner : ∀ (j : Nat) (d : Int), ((w - d) % 7).toNat = j →
          ∃ f e, addWorkingDaysF wd d r f = some e := by
        intro j
        induction j with
        | zero =>
          intro d hd
          have hwd : weekday (d + 1) ∈ wd := by
            have hweq : weekday (d + 1) = w := by
              unfold weekday
              omega
            rwa [hweq]
          obtain ⟨f, e, hf⟩ := ihn (r - 1) (by omega) (d + 1)
          refine ⟨f + 1, e, ?_⟩
          rw [addWorkingDaysF_eq, if_neg hr0]
          show addWorkingDaysF wd (d + 1) (if weekday (d + 1) ∈ wd then r - 1 else r) f = _
          rw [if_pos hwd]
          exact hf
        | succ j ihj =>
          intro d hd
          by_cases hwd : weekday (d + 1) ∈ wd
          · obtain ⟨f, e, hf⟩ := ihn (r - 1) (by omega) (d + 1)
            refine ⟨f + 1, e, ?_⟩
            rw [addWorkingDaysF_eq, if_neg hr0]
            show addWorkingDaysF wd (d + 1) (if weekday (d + 1) ∈ wd then r - 1 else r) f = _
            rw [if_pos hwd]
            exact hf
          · obtain ⟨f, e, hf⟩ := ihj (d + 1) (by
              have : weekday (d + 1) ≠ w := fun hc => hwd (hc ▸ hw)
              unfold weekday at this
              omega)
            refine ⟨f + 1, e, ?_⟩
            rw [addWorkingDaysF_eq, if_neg hr0]
            show addWorkingDaysF wd (d + 1) (if weekday (d + 1) ∈ wd then r - 1 else r) f = _
            rw [if_neg hwd]
            exact hf
      exact inner ((w - d) % 7).toNat d rfl

theorem subWorkingDaysF_total (wd : List Int) (hv : HasValidWorkingDay wd) :
    ∀ (r d : Int), ∃ f e, subWorkingDaysF wd d r f = some e := by
  obtain ⟨w, hw, hw0, hw7⟩ := hv
  suffices h : ∀ (n : Nat) (r : Int), r.toNat ≤ n → ∀ d, ∃ f e,
      subWorkingDaysF wd d r f = some e by
    intro r d
    exact h r.toNat r le_rfl d
  intro n
  induction n with
  | zero =>
    intro r hr d
    exact ⟨0, d, subWorkingDaysF_nonpos _ _ _ _ (by omega)⟩
  | succ n ihn =>
    intro r hr d
    by_cases hr0 : r ≤ 0
    · exact ⟨0, d, subWorkingDaysF_nonpos _ _ _ _ hr0⟩
    · have inner : ∀ (j : Nat) (d : Int), ((d - 2 - w) % 7).toNat = j →
          ∃ f e, subWorkingDaysF wd d r f = some e := by
        intro j
        induction j with
        | zero =>
          intro d hd
          have hwd : weekday (d - 1) ∈ wd := by
            have hweq : weekday (d - 1) = w := by
              unfold weekday
              omega
            rwa [hweq]
          obtain ⟨f, e, hf⟩ := ihn (r - 1) (by omega) (d - 1)
          refine ⟨f + 1, e, ?_⟩
          rw [subWorkingDaysF_eq, if_neg hr0]
          show subWorkingDaysF wd (d - 1) (if weekday (d - 1) ∈ wd then r - 1 else r) f = _
          rw [if_pos hwd]
          exact hf
        | succ j ihj =>
          intro d hd
          by_cases hwd : weekday (d - 1) ∈ wd
          · obtain ⟨f, e, hf⟩ := ihn (r - 1) (by omega) (d - 1)
            refine ⟨f + 1, e, ?_⟩
            rw [subWorkingDaysF_eq, if_neg hr0]
            show subWorkingDaysF wd (d - 1) (if weekday (d - 1) ∈ wd then r - 1 else r) f = _
            rw [if_pos hwd]
            exact hf
          · obtain ⟨f, e, hf⟩ := ihj (d - 1) (by
              have : weekday (d - 1) ≠ w := fun hc => hwd (hc ▸ hw)
              unfold weekday at this
              omega)
            refine ⟨f + 1, e, ?_⟩
            rw [subWorkingDaysF_eq, if_neg hr0]
            show subWorkingDaysF wd (d - 1) (if weekday (d - 1) ∈ wd then r - 1 else r) f = _
            rw [if_neg hwd]
            exact hf
      exact inner ((d - 2 - w) % 7).toNat d rfl

/-! ## Per-task derivation lemmas -/

theorem depStartStep_cases (wd : List Int) (tasks : List Task) (t : Task) (fuel : Nat)
    (t' : Task) (h : depStartStep wd tasks t fuel = some t') :
    t' = t ∨
    ∃ le s, t.dependencies ≠ [] ∧ latestDepEnd tasks t.dependencies = some le ∧
      addWorkingDaysF wd le 1 fuel = some s ∧ t' = { t with start_date := some s } := by
  unfold depStartStep at h
  split at h
  · exact Or.inl (Option.some.inj h).symm
  · rename_i hne
    split at h
    · exact Or.inl (Option.some.inj h).symm
    · rename_i le hle
      split at h
      · exact absurd h (by simp)
      · rename_i s hs
        exact Or.inr ⟨le, s, hne, hle, hs, (Option.some.inj h).symm⟩

theorem deriveStep_cases (wd : List Int) (t : Task) (fuel : Nat) (t' : Task)
    (h : deriveStep wd t fuel = some t') :
    (∃ s dur e, t.start_date = some s ∧ t.duration = some dur ∧
        addWorkingDaysF wd s (dur - 1) fuel = some e ∧
        t' = { t with end_date := some e }) ∨
    (∃ s e, t.start_date = some s ∧ t.duration = none ∧ t.end_date = some e ∧
        t' = { t with duration := some ((countWorkingDays wd s e : Int) + 1) }) ∨
    (∃ dur e s, t.start_date = none ∧ t.duration = some dur ∧ t.end_date = some e ∧
        subWorkingDaysF wd e (dur - 1) fuel = some s ∧
        t' = { t with start_date := some s }) ∨
    (t' = t ∧
      (t.duration = none ∧ t.end_date = none ∨
       t.start_date = none ∧ t.duration = none ∨
       t.start_date = none ∧ t.end_date = none)) := by
  obtain ⟨tid, tname, tdeps, tsd, ted, tdur, tmil⟩ := t
  rcases tsd with _ | s
  · rcases tdur with _ | dur
    · -- (none, none, _): catch-all
      exact Or.inr (Or.inr (Or.inr ⟨(Option.some.inj h).symm, Or.inr (Or.inl ⟨rfl, rfl⟩)⟩))
    · rcases ted with _ | e
      · -- (none, some, none): catch-all
        exact Or.inr (Or.inr (Or.inr ⟨(Option.some.inj h).symm, Or.inr (Or.inr ⟨rfl, rfl⟩)⟩))
      · -- (none, some, some): third branch
        replace h : (subWorkingDaysF wd e (dur - 1) fuel).map
            (fun s => Task.mk tid tname tdeps (some s) (some e) (some dur) tmil)
            = some t' := h
        rcases hmap : subWorkingDaysF wd e (dur - 1) fuel with _ | s
        · rw [hmap] at h
          exact Option.noConfusion h
        · rw [hmap] at h
          simp only [Option.map_some', Option.some.injEq] at h
          exact Or.inr (Or.inr (Or.inl ⟨dur, e, s, rfl, rfl, rfl, hmap, h.symm⟩))
  · rcases tdur with _ | dur
    · rcases ted with _ | e
      · -- (some, none, none): catch-all
        exact Or.inr (Or.inr (Or.inr ⟨(Option.some.inj h).symm, Or.inl ⟨rfl, rfl⟩⟩))
      · -- (some, none, some): second branch
        exact Or.inr (Or.inl ⟨s, e, rfl, rfl, rfl, (Option.some.inj h).symm⟩)
    · -- (some, some, _): first branch
      replace h : (addWorkingDaysF wd s (dur - 1) fuel).map
          (fun e => Task.mk tid tname tdeps (some s) (some e) (some dur) tmil)
          = some t' := h
      rcases hmap : addWorkingDaysF wd s (dur - 1) fuel with _ | e
      · rw [hmap] at h
        exact Option.noConfusion h
      · rw [hmap] at h
        simp only [Option.map_some', Option.some.injEq] at h
        exact Or.inl ⟨s, dur, e, rfl, rfl, hmap, h.symm⟩

theorem fallbackStep_cases (wd : List Int) (planStart : Option Int) (today : Int)
    (t : Task) (fuel : Nat) (t' : Task)
    (h : fallbackStep wd planStart today t fuel = some t') :
    (t.start_date.isSome ∧ t' = t) ∨
    (t.start_date = none ∧
      ((∃ dur e, t.duration = some dur ∧
          addWorkingDaysF wd (planStart.getD today) (dur - 1) fuel = some e ∧
          t' = { t with start_date := some (planStart.getD today),
                        end_date := some e }) ∨
       (t.duration = none ∧
          t' = { t with start_date := some (planStart.getD today) }))) := by
  obtain ⟨tid, tname, tdeps, tsd, ted, tdur, tmil⟩ := t
  rcases tsd with _ | s
  · rcases tdur with _ | dur
    · exact Or.inr ⟨rfl, Or.inr ⟨rfl, (Option.some.inj h).symm⟩⟩
    · replace h : (addWorkingDaysF wd (planStart.getD today) (dur - 1) fuel).map
          (fun e => Task.mk tid tname tdeps (some (planStart.getD today)) (some e)
            (some dur) tmil) = some t' := h
      rcases hmap : addWorkingDaysF wd (planStart.getD today) (dur - 1) fuel with _ | e
      · rw [hmap] at h
        exact Option.noConfusion h
      · rw [hmap] at h
        simp only [Option.map_some', Option.some.injEq] at h
        exact Or.inr ⟨rfl, Or.inl ⟨dur, e, rfl, hmap, h.symm⟩⟩
  · exact Or.inl ⟨rfl, (Option.some.inj h).symm⟩

theorem calcTaskDates_split (wd : List Int) (planStart : Option Int) (today : Int)
    (tasks : List Task) (t0 : Task) (fuel : Nat) (t' : Task)
    (h : calcTaskDates wd planStart today tasks t0 fuel = some t') :
    ∃ t2 t3, depStartStep wd tasks (milestoneStep t0) fuel = some t2 ∧
      deriveStep wd t2 fuel = some t3 ∧
      fallbackStep wd planStart today t3 fuel = some t' := by
  unfold calcTaskDates at h
  rcases h1 : depStartStep wd tasks (milestoneStep t0) fuel with _ | t2
  · rw [h1] at h
    exact Option.noConfusion h
  · rw [h1] at h
    replace h : (deriveStep wd t2 fuel).bind
        (fun t3 => fallbackStep wd planStart today t3 fuel) = some t' := h
    rcases h2 : deriveStep wd t2 fuel with _ | t3
    · rw [h2] at h
      exact Option.noConfusion h
    · rw [h2] at h
      replace h : fallbackStep wd planStart today t3 fuel = some t' := h
      exact ⟨t2, t3, rfl, h2, h⟩

theorem milestoneStep_fields (t : Task) :
    (milestoneStep t).id = t.id ∧ (milestoneStep t).name = t.name ∧
    (milestoneStep t).dependencies = t.dependencies ∧
    (milestoneStep t).is_milestone = t.is_milestone ∧
    (milestoneStep t).start_date = t.start_date ∧
    (milestoneStep t).end_date = t.end_date ∧
    (milestoneStep t).duration = (if t.is_milestone then some 0 else t.duration) := by
  unfold milestoneStep
  split <;> simp_all

theorem depStartStep_fields (wd : List Int) (tasks : List Task) (t : Task) (fuel : Nat)
    (t' : Task) (h : depStartStep wd tasks t fuel = some t') :
    t'.id = t.id ∧ t'.name = t.name ∧ t'.dependencies = t.dependencies ∧
    t'.is_milestone = t.is_milestone ∧ t'.duration = t.duration ∧
    t'.end_date = t.end_date := by
  rcases depStartStep_cases wd tasks t fuel t' h with rfl | ⟨le, s, _, _, _, rfl⟩ <;> simp

theorem deriveStep_fields (wd : List Int) (t : Task) (fuel : Nat) (t' : Task)
    (h : deriveStep wd t fuel = some t') :
    t'.id = t.id ∧ t'.name = t.name ∧ t'.dependencies = t.dependencies ∧
    t'.is_milestone = t.is_milestone := by
  rcases deriveStep_cases wd t fuel t' h with
    ⟨s, dur, e, _, _, _, rfl⟩ | ⟨s, e, _, _, _, rfl⟩ | ⟨dur, e, s, _, _, _, _, rfl⟩ |
    ⟨rfl, _⟩ <;> simp

theorem fallbackStep_fields (wd : List Int) (planStart : Option Int) (today : Int)
    (t : Task) (fuel : Nat) (t' : Task)
    (h : fallbackStep wd planStart today t fuel = some t') :
    t'.id = t.id ∧ t'.name = t.name ∧ t'.dependencies = t.dependencies ∧
    t'.is_milestone = t.is_milestone := by
  rcases fallbackStep_cases wd planStart today t fuel t' h with
    ⟨_, rfl⟩ | ⟨_, ⟨dur, e, _, _, rfl⟩ | ⟨_, rfl⟩⟩ <;> simp

/-- `_calculate_task_dates` only writes the three date fields: id, name,
dependency list and milestone flag survive unchanged. -/
theorem calcTaskDates_fields (wd : List Int) (planStart : Option Int) (today : Int)
    (tasks : List Task) (t0 : Task) (fuel : Nat) (t' : Task)
    (h : calcTaskDates wd planStart today tasks t0 fuel = some t') :
    t'.id = t0.id ∧ t'.name = t0.name ∧ t'.dependencies = t0.dependencies ∧
    t'.is_milestone = t0.is_milestone := by
  obtain ⟨t2, t3, h1, h2, h3⟩ := calcTaskDates_split wd planStart today tasks t0 fuel t' h
  obtain ⟨m1, m2, m3, m4, _, _, _⟩ := milestoneStep_fields t0
  obtain ⟨a1, a2, a3, a4, _, _⟩ := depStartStep_fields wd tasks _ fuel t2 h1
  obtain ⟨b1, b2, b3, b4⟩ := deriveStep_fields wd t2 fuel t3 h2
  obtain ⟨c1, c2, c3, c4⟩ := fallbackStep_fields wd planStart today t3 fuel t' h3
  refine ⟨?_, ?_, ?_, ?_⟩ <;> simp_all

/-- After `_calculate_task_dates`, the start date is always resolved
(the fallback of lines 138–139 guarantees it). -/
theorem calcTaskDates_start_isSome (wd : List Int) (planStart : Option Int) (today : Int)
    (tasks : List Task) (t0 : Task) (fuel : Nat) (t' : Task)
    (h : calcTaskDates wd planStart today tasks t0 fuel = some t') :
    t'.start_date.isSome := by
  obtain ⟨t2, t3, h1, h2, h3⟩ := calcTaskDates_split wd planStart today tasks t0 fuel t' h
  rcases fallbackStep_cases wd planStart today t3 fuel t' h3 with
    ⟨hs, rfl⟩ | ⟨hs, ⟨dur, e, _, _, rfl⟩ | ⟨_, rfl⟩⟩ <;> simp_all

/-- After `_calculate_task_dates`, a resolved duration comes with a
resolved end date. -/
theorem calcTaskDates_duration_end (wd : List Int) (planStart : Option Int) (today : Int)
    (tasks : List Task) (t0 : Task) (fuel : Nat) (t' : Task)
    (h : calcTaskDates wd planStart today tasks t0 fuel = some t') :
    t'.duration.isSome → t'.end_date.isSome := by
  obtain ⟨t2, t3, h1, h2, h3⟩ := calcTaskDates_split wd planStart today tasks t0 fuel t' h
  have hR : (t3.duration.isSome → t3.end_date.isSome) ∨ t3.start_date = none := by
    rcases deriveStep_cases wd t2 fuel t3 h2 with
      ⟨s, dur, e, _, _, _, rfl⟩ | ⟨s, e, _, _, he, rfl⟩ |
      ⟨dur, e, s, _, _, he, _, rfl⟩ | ⟨rfl, hc⟩
    · exact Or.inl (fun _ => by simp)
    · exact Or.inl (fun _ => by simp [he])
    · exact Or.inl (fun _ => by simp [he])
    · rcases hc with ⟨h4, h5⟩ | ⟨h4, h5⟩ | ⟨h4, h5⟩
      · exact Or.inl (fun hc => by rw [h4] at hc; exact absurd hc (by simp))
      · exact Or.inr h4
      · exact Or.inr h4
  rcases fallbackStep_cases wd planStart today t3 fuel t' h3 with
    ⟨hs, rfl⟩ | ⟨hs, ⟨dur, e, _, _, rfl⟩ | ⟨hdn, rfl⟩⟩
  · rcases hR with hR | hR
    · exact hR
    · rw [hR] at hs
      exact absurd hs (by simp)
  · intro _
    simp
  · intro hc
    rw [show ({ t3 with start_date := some (planStart.getD today) } : Task).duration
        = t3.duration from rfl] at hc
    rw [hdn] at hc
    exact absurd hc (by simp)

theorem task_eta_start (t : Task) (x : Option Int) (h : t.start_date = x) :
    ({ t with start_date := x } : Task) = t := by
  cases t
  cases h
  rfl

theorem task_eta_end (t : Task) (x : Option Int) (h : t.end_date = x) :
    ({ t with end_date := x } : Task) = t := by
  cases t
  cases h
  rfl

theorem task_eta_duration (t : Task) (x : Option Int) (h : t.duration = x) :
    ({ t with duration := x } : Task) = t := by
  cases t
  cases h
  rfl

/-- A task whose duration is (forced to) 0 leaves `_calculate_task_dates`
with duration 0 and coinciding start and end dates: the derivation
`end = add_working_days(start, duration - 1)` passes `-1`, whose loop
body never runs. -/
theorem calcTaskDates_zero_duration (wd : List Int) (planStart : Option Int)
    (today : Int) (tasks : List Task) (t0 : Task) (fuel : Nat) (t' : Task)
    (h : calcTaskDates wd planStart today tasks t0 fuel = some t')
    (hz : (milestoneStep t0).duration = some 0) :
    t'.duration = some 0 ∧ t'.end_date = t'.start_date ∧ t'.start_date.isSome := by
  obtain ⟨t2, t3, h1, h2, h3⟩ := calcTaskDates_split wd planStart today tasks t0 fuel t' h
  have hd2 : t2.duration = some 0 := by
    rw [(depStartStep_fields wd tasks _ fuel t2 h1).2.2.2.2.1, hz]
  rcases deriveStep_cases wd t2 fuel t3 h2 with
    ⟨s, dur, e, hs, hdur, hmap, ht3⟩ | ⟨s, e, hs, hdur, he, ht3⟩ |
    ⟨dur, e, s, hs, hdur, he, hmap, ht3⟩ | ⟨ht3, hc⟩
  · -- start and duration known: end := add(start, -1) = start
    rw [hd2] at hdur
    have hdur0 : dur = 0 := by injection hdur with h0; omega
    have hnp := addWorkingDaysF_nonpos wd s (dur - 1) fuel (by omega)
    have hes : e = s := addWorkingDaysF_unique wd hmap hnp
    have h3s : t3.start_date = some s := by rw [ht3]; exact hs
    rcases fallbackStep_cases wd planStart today t3 fuel t' h3 with ⟨_, ht'⟩ | ⟨hnone, _⟩
    · rw [ht', ht3]
      exact ⟨by simpa using hd2, by simp [hes, hs], by simp [hs]⟩
    · rw [h3s] at hnone
      exact Option.noConfusion hnone
  · rw [hd2] at hdur
    exact Option.noConfusion hdur
  · -- end and duration known: start := sub(end, -1) = end
    rw [hd2] at hdur
    have hdur0 : dur = 0 := by injection hdur with h0; omega
    have hnp := subWorkingDaysF_nonpos wd e (dur - 1) fuel (by omega)
    have hes : s = e := subWorkingDaysF_unique wd hmap hnp
    have h3s : t3.start_date = some s := by rw [ht3]
    rcases fallbackStep_cases wd planStart today t3 fuel t' h3 with ⟨_, ht'⟩ | ⟨hnone, _⟩
    · rw [ht', ht3]
      refine ⟨by simpa using hd2, ?_, by simp⟩
      show ({ t2 with start_date := some s } : Task).end_date = some s
      show t2.end_date = some s
      rw [he, hes]
    · rw [h3s] at hnone
      exact Option.noConfusion hnone
  · -- nothing derivable: the fallback sets start and recomputes end
    rcases fallbackStep_cases wd planStart today t3 fuel t' h3 with
      ⟨hsome, ht'⟩ | ⟨hnone, ⟨dur, e, hdur, hmap, ht'⟩ | ⟨hdn, ht'⟩⟩
    · exfalso
      rw [ht3] at hsome
      rcases hc with ⟨h4, h5⟩ | ⟨h4, h5⟩ | ⟨h4, h5⟩
      · rw [hd2] at h4
        exact Option.noConfusion h4
      · rw [h4] at hsome
        exact absurd hsome (by simp)
      · rw [h4] at hsome
        exact absurd hsome (by simp)
    · rw [ht3, hd2] at hdur
      have hdur0 : dur = 0 := by injection hdur with h0; omega
      have hnp := addWorkingDaysF_nonpos wd (planStart.getD today) (dur - 1) fuel (by omega)
      have hes : e = planStart.getD today := addWorkingDaysF_unique wd hmap hnp
      rw [ht', ht3]
      refine ⟨by simpa using hd2, ?_, by simp⟩
      show some e = some (planStart.getD today)
      rw [hes]
    · exfalso
      rw [ht3, hd2] at hdn
      exact Option.noConfusion hdn

/-- On an already-consistent task (`TaskConsistent`), the derivation
rewrites every field with the value it already has. -/
theorem calcTaskDates_fixpoint (wd : List Int) (planStart : Option Int) (today : Int)
    (tasks : List Task) (t0 : Task) (fuel : Nat) (t' : Task)
    (hcons : TaskConsistent wd tasks t0)
    (h : calcTaskDates wd planStart today tasks t0 fuel = some t') : t' = t0 := by
  obtain ⟨s, e, dur, hs, he, hdur, hmil, ⟨fa, hadd⟩, hdep⟩ := hcons
  obtain ⟨t2, t3, h1, h2, h3⟩ := calcTaskDates_split wd planStart today tasks t0 fuel t' h
  have hm : milestoneStep t0 = t0 := by
    unfold milestoneStep
    split
    · rename_i hmile
      exact task_eta_duration t0 (some 0) (by rw [hdur, hmil hmile])
    · rfl
  rw [hm] at h1
  have ht2 : t2 = t0 := by
    rcases depStartStep_cases wd tasks t0 fuel t2 h1 with he2 | ⟨le, s1, hne, hle, hs1, he2⟩
    · exact he2
    · obtain ⟨fb, hb⟩ := hdep le hle
      have hss : s1 = s := addWorkingDaysF_unique wd hs1 hb
      rw [he2, hss]
      exact task_eta_start t0 (some s) hs
  rw [ht2] at h2
  have ht3 : t3 = t0 := by
    rcases deriveStep_cases wd t0 fuel t3 h2 with
      ⟨s1, dur1, e1, hs1, hdur1, hmap, he3⟩ | ⟨s1, e1, hs1, hdur1, he1, he3⟩ |
      ⟨dur1, e1, s1, hs1, hdur1, he1, hmap, he3⟩ | ⟨he3, hc⟩
    · rw [hs] at hs1
      rw [hdur] at hdur1
      injection hs1 with hs1
      injection hdur1 with hdur1
      rw [← hs1, ← hdur1] at hmap
      have hee : e1 = e := addWorkingDaysF_unique wd hmap hadd
      rw [he3, hee]
      exact task_eta_end t0 (some e) he
    · rw [hdur] at hdur1
      exact Option.noConfusion hdur1
    · rw [hs] at hs1
      exact Option.noConfusion hs1
    · exact he3
  rw [ht3] at h3
  rcases fallbackStep_cases wd planStart today t0 fuel t' h3 with
    ⟨_, ht'⟩ | ⟨hnone, _⟩
  · exact ht'
  · rw [hs] at hnone
    exact Option.noConfusion hnone

theorem depStartStep_empty (wd : List Int) (tasks : List Task) (t : Task) (fuel : Nat)
    (h : t.dependencies = []) : depStartStep wd tasks t fuel = some t := by
  unfold depStartStep
  rw [if_pos h]

theorem depStartStep_noLatest (wd : List Int) (tasks : List Task) (t : Task) (fuel : Nat)
    (hne : ¬ t.dependencies = []) (hl : latestDepEnd tasks t.dependencies = none) :
    depStartStep wd tasks t fuel = some t := by
  unfold depStartStep
  rw [if_neg hne]
  split
  · rfl
  · rename_i le hle
    rw [hl] at hle
    exact Option.noConfusion hle

theorem depStartStep_latest (wd : List Int) (tasks : List Task) (t : Task) (fuel : Nat)
    (le : Int) (hne : ¬ t.dependencies = [])
    (hl : latestDepEnd tasks t.dependencies = some le) :
    depStartStep wd tasks t fuel =
      match addWorkingDaysF wd le 1 fuel with
      | none => none
      | some s => some { t with start_date := some s } := by
  unfold depStartStep
  rw [if_neg hne]
  split
  · rename_i hn
    rw [hl] at hn
    exact Option.noConfusion hn
  · rename_i le' hle'
    rw [hl] at hle'
    injection hle' with he
    subst he
    rfl

theorem depStartStep_mono (wd : List Int) (tasks : List Task) (t : Task)
    (fuel fuel' : Nat) (t' : Task) (h : depStartStep wd tasks t fuel = some t')
    (hle : fuel ≤ fuel') : depStartStep wd tasks t fuel' = some t' := by
  by_cases hdeps : t.dependencies = []
  · rw [depStartStep_empty wd tasks t fuel hdeps] at h
    rw [depStartStep_empty wd tasks t fuel' hdeps]
    exact h
  · rcases hle2 : latestDepEnd tasks t.dependencies with _ | le
    · rw [depStartStep_noLatest wd tasks t fuel hdeps hle2] at h
      rw [depStartStep_noLatest wd tasks t fuel' hdeps hle2]
      exact h
    · rcases ha : addWorkingDaysF wd le 1 fuel with _ | s
      · rw [depStartStep_latest wd tasks t fuel le hdeps hle2, ha] at h
        exact Option.noConfusion h
      · rw [depStartStep_latest wd tasks t fuel le hdeps hle2, ha] at h
        rw [depStartStep_latest wd tasks t fuel' le hdeps hle2,
          addWorkingDaysF_mono wd fuel fuel' le 1 s hle ha]
        exact h

theorem deriveStep_mono (wd : List Int) (t : Task) (fuel fuel' : Nat) (t' : Task)
    (h : deriveStep wd t fuel = some t') (hle : fuel ≤ fuel') :
    deriveStep wd t fuel' = some t' := by
  obtain ⟨tid, tname, tdeps, tsd, ted, tdur, tmil⟩ := t
  rcases tsd with _ | s
  · rcases tdur with _ | dur
    · exact h
    · rcases ted with _ | e
      · exact h
      · replace h : (subWorkingDaysF wd e (dur - 1) fuel).map
            (fun s => Task.mk tid tname tdeps (some s) (some e) (some dur) tmil)
            = some t' := h
        show (subWorkingDaysF wd e (dur - 1) fuel').map
            (fun s => Task.mk tid tname tdeps (some s) (some e) (some dur) tmil)
            = some t'
        rcases hmap : subWorkingDaysF wd e (dur - 1) fuel with _ | s
        · rw [hmap] at h
          exact Option.noConfusion h
        · rw [hmap] at h
          rw [subWorkingDaysF_mono wd fuel fuel' e (dur - 1) s hle hmap]
          exact h
  · rcases tdur with _ | dur
    · rcases ted with _ | e
      · exact h
      · exact h
    · replace h : (addWorkingDaysF wd s (dur - 1) fuel).map
          (fun e => Task.mk tid tname tdeps (some s) (some e) (some dur) tmil)
          = some t' := h
      show (addWorkingDaysF wd s (dur - 1) fuel').map
          (fun e => Task.mk tid tname tdeps (some s) (some e) (some dur) tmil)
          = some t'
      rcases hmap : addWorkingDaysF wd s (dur - 1) fuel with _ | e
      · rw [hmap] at h
        exact Option.noConfusion h
      · rw [hmap] at h
        rw [addWorkingDaysF_mono wd fuel fuel' s (dur - 1) e hle hmap]
        exact h

theorem fallbackStep_mono (wd : List Int) (planStart : Option Int) (today : Int)
    (t : Task) (fuel fuel' : Nat) (t' : Task)
    (h : fallbackStep wd planStart today t fuel = some t') (hle : fuel ≤ fuel') :
    fallbackStep wd planStart today t fuel' = some t' := by
  obtain ⟨tid, tname, tdeps, tsd, ted, tdur, tmil⟩ := t
  rcases tsd with _ | s
  · rcases tdur with _ | dur
    · exact h
    · replace h : (addWorkingDaysF wd (planStart.getD today) (dur - 1) fuel).map
          (fun e => Task.mk tid tname tdeps (some (planStart.getD today)) (some e)
            (some dur) tmil) = some t' := h
      show (addWorkingDaysF wd (planStart.getD today) (dur - 1) fuel').map
          (fun e => Task.mk tid tname tdeps (some (planStart.getD today)) (some e)
            (some dur) tmil) = some t'
      rcases hmap : addWorkingDaysF wd (planStart.getD today) (dur - 1) fuel with _ | e
      · rw [hmap] at h
        exact Option.noConfusion h
      · rw [hmap] at h
        rw [addWorkingDaysF_mono wd fuel fuel' (planStart.getD today) (dur - 1) e hle hmap]
        exact h
  · exact h

theorem calcTaskDates_mono (wd : List Int) (planStart : Option Int) (today : Int)
    (tasks : List Task) (t0 : Task) (fuel fuel' : Nat) (t' : Task)
    (h : calcTaskDates wd planStart today tasks t0 fuel = some t')
    (hle : fuel ≤ fuel') : calcTaskDates wd planStart today tasks t0 fuel' = some t' := by
  obtain ⟨t2, t3, h1, h2, h3⟩ := calcTaskDates_split wd planStart today tasks t0 fuel t' h
  unfold calcTaskDates
  rw [depStartStep_mono wd tasks (milestoneStep t0) fuel fuel' t2 h1 hle]
  show (deriveStep wd t2 fuel').bind
      (fun t3 => fallbackStep wd planStart today t3 fuel') = some t'
  rw [deriveStep_mono wd t2 fuel fuel' t3 h2 hle]
  exact fallbackStep_mono wd planStart today t3 fuel fuel' t' h3 hle

theorem depStartStep_total (wd : List Int) (hv : HasValidWorkingDay wd)
    (tasks : List Task) (t : Task) : ∃ fuel t2, depStartStep wd tasks t fuel = some t2 := by
  by_cases hdeps : t.dependencies = []
  · exact ⟨0, t, depStartStep_empty wd tasks t 0 hdeps⟩
  · rcases hle2 : latestDepEnd tasks t.dependencies with _ | le
    · exact ⟨0, t, depStartStep_noLatest wd tasks t 0 hdeps hle2⟩
    · obtain ⟨f, s, hf⟩ := addWorkingDaysF_total wd hv 1 le
      refine ⟨f, { t with start_date := some s }, ?_⟩
      rw [depStartStep_latest wd tasks t f le hdeps hle2, hf]

theorem deriveStep_total (wd : List Int) (hv : HasValidWorkingDay wd) (t : Task) :
    ∃ fuel t3, deriveStep wd t fuel = some t3 := by
  obtain ⟨tid, tname, tdeps, tsd, ted, tdur, tmil⟩ := t
  rcases tsd with _ | s
  · rcases tdur with _ | dur
    · exact ⟨0, Task.mk tid tname tdeps none ted none tmil, rfl⟩
    · rcases ted with _ | e
      · exact ⟨0, Task.mk tid tname tdeps none none (some dur) tmil, rfl⟩
      · obtain ⟨f, s, hf⟩ := subWorkingDaysF_total wd hv (dur - 1) e
        refine ⟨f, Task.mk tid tname tdeps (some s) (some e) (some dur) tmil, ?_⟩
        show (subWorkingDaysF wd e (dur - 1) f).map
            (fun s => Task.mk tid tname tdeps (some s) (some e) (some dur) tmil) = _
        rw [hf]
        rfl
  · rcases tdur with _ | dur
    · rcases ted with _ | e
      · exact ⟨0, Task.mk tid tname tdeps (some s) none none tmil, rfl⟩
      · exact ⟨0, Task.mk tid tname tdeps (some s) (some e)
          (some ((countWorkingDays wd s e : Int) + 1)) tmil, rfl⟩
    · obtain ⟨f, e, hf⟩ := addWorkingDaysF_total wd hv (dur - 1) s
      refine ⟨f, Task.mk tid tname tdeps (some s) (some e) (some dur) tmil, ?_⟩
      show (addWorkingDaysF wd s (dur - 1) f).map
          (fun e => Task.mk tid tname tdeps (some s) (some e) (some dur) tmil) = _
      rw [hf]
      rfl

theorem fallbackStep_total (wd : List Int) (hv : HasValidWorkingDay wd)
    (planStart : Option Int) (today : Int) (t : Task) :
    ∃ fuel t', fallbackStep wd planStart today t fuel = some t' := by
  obtain ⟨tid, tname, tdeps, tsd, ted, tdur, tmil⟩ := t
  rcases tsd with _ | s
  · rcases tdur with _ | dur
    · exact ⟨0, Task.mk tid tname tdeps (some (planStart.getD today)) ted none tmil, rfl⟩
    · obtain ⟨f, e, hf⟩ := addWorkingDaysF_total wd hv (dur - 1) (planStart.getD today)
      refine ⟨f, Task.mk tid tname tdeps (some (planStart.getD today)) (some e)
        (some dur) tmil, ?_⟩
      show (addWorkingDaysF wd (planStart.getD today) (dur - 1) f).map
          (fun e => Task.mk tid tname tdeps (some (planStart.getD today)) (some e)
            (some dur) tmil) = _
      rw [hf]
      rfl
  · exact ⟨0, Task.mk tid tname tdeps (some s) ted tdur tmil, rfl⟩

theorem calcTaskDates_total (wd : List Int) (hv : HasValidWorkingDay wd)
    (planStart : Option Int) (today : Int) (tasks : List Task) (t0 : Task) :
    ∃ fuel t', calcTaskDates wd planStart today tasks t0 fuel = some t' := by
  obtain ⟨f1, t2, h1⟩ := depStartStep_total wd hv tasks (milestoneStep t0)
  obtain ⟨f2, t3, h2⟩ := deriveStep_total wd hv t2
  obtain ⟨f3, t', h3⟩ := fallbackStep_total wd hv planStart today t3
  refine ⟨max f1 (max f2 f3), t', ?_⟩
  unfold calcTaskDates
  rw [depStartStep_mono wd tasks (milestoneStep t0) f1 _ t2 h1 (Nat.le_max_left _ _)]
  show (deriveStep wd t2 (max f1 (max f2 f3))).bind
      (fun t3 => fallbackStep wd planStart today t3 (max f1 (max f2 f3))) = some t'
  rw [deriveStep_mono wd t2 f2 _ t3 h2
    (Nat.le_trans (Nat.le_max_left _ _) (Nat.le_max_right _ _))]
  exact fallbackStep_mono wd planStart today t3 f3 _ t' h3
    (Nat.le_trans (Nat.le_max_right _ _) (Nat.le_max_right _ _))

/-! ## Claim C4: the working-day round trip -/

/-- C4 counterexample: with the (non-empty) Monday–Friday working-day
set, starting from Saturday 2024-01-06, `add_working_days` lands on
Monday 2024-01-08 and `subtract_working_days` then lands on Friday
2024-01-05, not back on the Saturday — so
`subtract_working_days(add_working_days(d, n), n) == d` fails for
`d = 2024-01-06`, `n = 1`. -/
theorem c4_counterexample :
    addWorkingDaysF wdMonFri 738891 1 50 = some 738893 ∧
    subWorkingDaysF wdMonFri 738893 1 50 = some 738890 ∧
    (738890 : Int) ≠ 738891 := by
  refine ⟨by decide, by decide, by decide⟩

/-- C4 (amended): for every date `d` that itself falls on a working day
and every `n ≥ 0`, whenever both fueled walks return,
`subtract_working_days(add_working_days(d, n), n) = d`.  (The original
claim, quantifying over arbitrary dates, fails on non-working start
dates: see the counterexample.) -/
theorem c4_working_day_roundtrip (wd : List Int) (d n e d' : Int) (f1 f2 : Nat)
    (hd : weekday d ∈ wd) (hn : 0 ≤ n)
    (h1 : addWorkingDaysF wd d n f1 = some e)
    (h2 : subWorkingDaysF wd e n f2 = some d') : d' = d := by
  rcases addWorkingDaysF_spec wd f1 d n e h1 with ⟨hr, he⟩ | ⟨hr, hlt, hwe, hc⟩
  · subst he
    rcases subWorkingDaysF_spec wd f2 e n d' h2 with ⟨_, hd'⟩ | ⟨hr2, _, _, _⟩
    · exact hd'
    · omega
  · rcases subWorkingDaysF_spec wd f2 e n d' h2 with ⟨hr2, _⟩ | ⟨hr2, hlt2, hwd', hc2⟩
    · omega
    · have h5 : countWD wd d (e + 1) = countWD wd d e + countWD wd e (e + 1) :=
        countWD_split wd (by omega) (by omega)
      have h6 : countWD wd d (e + 1) = countWD wd d (d + 1) + countWD wd (d + 1) (e + 1) :=
        countWD_split wd (by omega) (by omega)
      rw [countWD_single] at h5
      rw [countWD_single] at h6
      rw [if_pos hwe] at h5
      rw [if_pos hd] at h6
      exact countWD_left_inj wd hwd' hd hlt2 hlt (by omega)

/-- C4 witness: the round trip at the Monday 2024-01-01 with `n = 1`. -/
theorem c4_roundtrip_witness :
    weekday 738886 ∈ wdMonFri ∧ (0 : Int) ≤ 1 ∧
    addWorkingDaysF wdMonFri 738886 1 50 = some 738887 ∧
    subWorkingDaysF wdMonFri 738887 1 50 = some 738886 ∧
    (738886 : Int) = 738886 :=
  ⟨by decide, by decide, by decide, by decide,
    c4_working_day_roundtrip wdMonFri 738886 1 738887 738886 50 50
      (by decide) (by decide) (by decide) (by decide)⟩

/-! ## Claim C10: non-positive step counts are identities -/

/-- C10: for every `n ≤ 0`, both `_add_working_days` and
`_subtract_working_days` return the base date unchanged (their `while`
loop bodies never run), and consequently a task whose duration is 0
leaves `_calculate_task_dates` — which passes `duration - 1 = -1` to the
calendar — with `end_date == start_date`. -/
theorem c10_nonpositive_steps_identity :
    (∀ (wd : List Int) (d r : Int) (fuel : Nat), r ≤ 0 →
      addWorkingDaysF wd d r fuel = some d ∧ subWorkingDaysF wd d r fuel = some d) ∧
    (∀ (wd : List Int) (planStart : Option Int) (today : Int) (tasks : List Task)
      (t0 t' : Task) (fuel : Nat), t0.duration = some 0 →
      calcTaskDates wd planStart today tasks t0 fuel = some t' →
      t'.duration = some 0 ∧ t'.end_date = t'.start_date) := by
  constructor
  · intro wd d r fuel hr
    exact ⟨addWorkingDaysF_nonpos wd d r fuel hr, subWorkingDaysF_nonpos wd d r fuel hr⟩
  · intro wd planStart today tasks t0 t' fuel hdur h
    have hz : (milestoneStep t0).duration = some 0 := by
      unfold milestoneStep
      split <;> simp [hdur]
    obtain ⟨hz1, hz2, _⟩ :=
      calcTaskDates_zero_duration wd planStart today tasks t0 fuel t' h hz
    exact ⟨hz1, hz2⟩

/-- C10 witness: `n = -1` on Monday 2024-01-01, and the zero-duration
task `Z` starting that Monday comes out of the derivation with
`end_date = start_date = 2024-01-01`. -/
theorem c10_witness :
    (addWorkingDaysF wdMonFri 738886 (-1) 5 = some 738886 ∧
     subWorkingDaysF wdMonFri 738886 (-1) 5 = some 738886) ∧
    ((mkTask "Z" [] (some 738886) (some 738886) (some 0) false).duration = some 0 ∧
     (mkTask "Z" [] (some 738886) (some 738886) (some 0) false).end_date =
       (mkTask "Z" [] (some 738886) (some 738886) (some 0) false).start_date) :=
  ⟨c10_nonpositive_steps_identity.1 wdMonFri 738886 (-1) 5 (by decide),
   c10_nonpositive_steps_identity.2 wdMonFri none 0 []
     (mkTask "Z" [] (some 738886) none (some 0) false)
     (mkTask "Z" [] (some 738886) (some 738886) (some 0) false) 10
     (by decide) (by decide)⟩

/-! ## Claim C1: the spec's concrete scenario -/

set_option maxHeartbeats 1600000 in
/-- C1: on the plan `A(no deps, start 2024-01-01, duration 5)`,
`B(dep A, duration 3)`, `M(milestone, dep B)` with a Monday–Friday
calendar, `calculate_dates` yields `A.end = 2024-01-05` (738890),
`B.start = 2024-01-08` (738893), `B.end = 2024-01-10` (738895),
`M.start = M.end = 2024-01-11` (738896), and `get_critical_path` then
returns exactly the tasks A, B, M. -/
theorem c1_scenario :
    scenarioRun.1 = .ok
      { tasks := [mkTask "A" [] (some 738886) (some 738890) (some 5) false,
                  mkTask "B" ["A"] (some 738893) (some 738895) (some 3) false,
                  mkTask "M" ["B"] (some 738896) (some 738896) (some 0) true],
        start_date := some 738886, end_date := some 738896,
        working_days := wdMonFri } ∧
    getCriticalPath scenarioRun.2 40 = some
      [mkTask "A" [] (some 738886) (some 738890) (some 5) false,
       mkTask "B" ["A"] (some 738893) (some 738895) (some 3) false,
       mkTask "M" ["B"] (some 738896) (some 738896) (some 0) true] := by
  constructor
  · decide
  · decide

/-! ## Claim C6: the critical-path zero-float property -/

set_option maxHeartbeats 1600000 in
/-- C6 counterexample: on `c6Plan` (B starts Saturday 2024-01-06, the
milestone M follows it), after `calculate_dates`, the CPM passes give B
earliest start 738891 (the Saturday) but latest start 738890 (the
previous Friday).  B is not returned, yet its earliest start is strictly
*later* than its latest start — refuting "every task not returned has
earliest-start strictly earlier than latest-start by at least one
working day". -/
theorem c6_counterexample :
    cpmPasses c6Run.2 40 =
      some ([("B", 738891), ("M", 738893)], [("M", 738893), ("B", 738890)]) ∧
    getCriticalPath c6Run.2 40 =
      some [mkTask "M" ["B"] (some 738893) (some 738893) (some 0) true] ∧
    ¬ ((738891 : Int) < 738890) := by
  refine ⟨by decide, by decide, by decide⟩

/-- C6 (amended): whenever `get_critical_path` returns at all, it
returns precisely the tasks whose computed earliest start equals their
computed latest start; a task not returned has `earliest ≠ latest`
(not necessarily earlier — see the counterexample). -/
theorem c6_zero_float_filter (p : Processor) (fuel : Nat)
    (es ls : List (String × Int)) (h : cpmPasses p fuel = some (es, ls)) :
    getCriticalPath p fuel = some (criticalFilter p.plan.tasks es ls) ∧
    ∀ t, t ∈ criticalFilter p.plan.tasks es ls ↔
      ∃ id d, lookupAL es id = some d ∧ lookupAL ls id = some d ∧
        lookupTask p.plan.tasks id = some t := by
  constructor
  · unfold getCriticalPath
    rw [h]
    rfl
  · intro t
    unfold criticalFilter
    rw [List.mem_filterMap]
    constructor
    · rintro ⟨id, hid, hf⟩
      split at hf
      · rename_i hcond
        have hsome : (es.find? (fun q => q.1 = id)).isSome := by
          rw [List.find?_isSome]
          obtain ⟨q, hq, hq2⟩ := List.mem_map.mp hid
          exact ⟨q, hq, by simp [hq2]⟩
        obtain ⟨q, hq⟩ := Option.isSome_iff_exists.mp hsome
        refine ⟨id, q.2, ?_, ?_, hf⟩
        · unfold lookupAL
          rw [hq]
          rfl
        · rw [← hcond]
          unfold lookupAL
          rw [hq]
          rfl
      · exact Option.noConfusion hf
    · rintro ⟨id, d, hes, hls, hlook⟩
      refine ⟨id, ?_, ?_⟩
      · unfold lookupAL at hes
        rcases hfind : es.find? (fun q => q.1 = id) with _ | q
        · rw [hfind] at hes
          exact Option.noConfusion hes
        · have hqmem := List.mem_of_find?_eq_some hfind
          have hqp := List.find?_some hfind
          simp only [decide_eq_true_eq] at hqp
          exact List.mem_map.mpr ⟨q, hqmem, hqp⟩
      · rw [if_pos (by rw [hes, hls])]
        exact hlook

set_option maxHeartbeats 1600000 in
/-- C6 witness: the amended theorem applied to the concrete processor of
`c6Run`, whose CPM maps evaluate to explicit association lists. -/
theorem c6_zero_float_witness :
    getCriticalPath c6Run.2 40 = some
      (criticalFilter c6Run.2.plan.tasks
        [("B", 738891), ("M", 738893)] [("M", 738893), ("B", 738890)]) :=
  (c6_zero_float_filter c6Run.2 40
    [("B", 738891), ("M", 738893)] [("M", 738893), ("B", 738890)] (by decide)).1

/-! ## Claim C7: `validate_plan` and the caller's plan -/

set_option maxHeartbeats 1600000 in
/-- C7: the claim says `validate_plan` leaves the plan unchanged because
the cycle check runs on a disposable copy.  The source's comment agrees
(`使用临时对象避免修改原数据`), but the code passes `self.project_plan`
itself to the temporary `CoreProcessor`, so the trial scheduling run
mutates the caller's tasks: on `c7Plan`, task V ends the call with
`end_date = 2024-01-02` (738887) — previously unset — and the plan's own
dates are overwritten.  This contradicts both the claim and the code's
own comment, so it is recorded as a code bug; this theorem evaluates the
model at the failing input. -/
theorem c7_validate_mutates_caller_plan :
    ((initProcessor c7Plan).validatePlan 0 40).map (fun r => (r.1, r.2.plan)) =
      some ([],
        { tasks := [mkTask "V" [] (some 738886) (some 738887) (some 2) false],
          start_date := some 738886, end_date := some 738887,
          working_days := wdMonFri }) ∧
    ({ tasks := [mkTask "V" [] (some 738886) (some 738887) (some 2) false],
       start_date := some 738886, end_date := some 738887,
       working_days := wdMonFri } : ProjectPlan) ≠ c7Plan := by
  refine ⟨by decide, by decide⟩

/-! ## Task-map lemmas -/

theorem lookupTask_mem {tasks : List Task} {id : String} {t : Task}
    (h : lookupTask tasks id = some t) : t ∈ tasks ∧ t.id = id := by
  refine ⟨List.mem_of_find?_eq_some h, ?_⟩
  have := List.find?_some h
  simpa using this

theorem lookupTask_of_mem (tasks : List Task) (t : Task)
    (hnd : (idsOf tasks).Nodup) (ht : t ∈ tasks) :
    lookupTask tasks t.id = some t := by
  induction tasks with
  | nil => cases ht
  | cons u rest ih =>
    unfold idsOf at hnd
    rw [List.map_cons, List.nodup_cons] at hnd
    rcases List.mem_cons.mp ht with rfl | hmem
    · unfold lookupTask
      rw [List.find?_cons_of_pos _ (by simp)]
    · have hne : u.id ≠ t.id := by
        intro he
        exact hnd.1 (he ▸ List.mem_map.mpr ⟨t, hmem, rfl⟩)
      unfold lookupTask
      rw [List.find?_cons_of_neg _ (by simp [hne])]
      exact ih hnd.2 hmem

theorem lookupTask_isSome_iff {tasks : List Task} {id : String} :
    (lookupTask tasks id).isSome ↔ id ∈ idsOf tasks := by
  unfold lookupTask idsOf
  rw [List.find?_isSome]
  constructor
  · rintro ⟨t, ht, hp⟩
    simp only [decide_eq_true_eq] at hp
    exact List.mem_map.mpr ⟨t, ht, hp⟩
  · intro h
    obtain ⟨t, ht, hp⟩ := List.mem_map.mp h
    exact ⟨t, ht, by simp [hp]⟩

theorem idsOf_updateTask (tasks : List Task) (t' : Task) :
    idsOf (updateTask tasks t') = idsOf tasks := by
  unfold idsOf updateTask
  rw [List.map_map]
  apply List.map_congr_left
  intro u _
  simp only [Function.comp_apply]
  split
  · rename_i he
    exact he.symm
  · rfl

theorem updateTask_self (tasks : List Task) (t : Task)
    (hnd : (idsOf tasks).Nodup) (ht : t ∈ tasks) : updateTask tasks t = tasks := by
  induction tasks with
  | nil => rfl
  | cons u rest ih =>
    unfold idsOf at hnd
    rw [List.map_cons, List.nodup_cons] at hnd
    unfold updateTask
    rw [List.map_cons]
    rcases List.mem_cons.mp ht with rfl | hmem
    · rw [if_pos rfl]
      congr 1
      have : ∀ v ∈ rest, (if v.id = t.id then t else v) = v := by
        intro v hv
        rw [if_neg]
        intro he
        exact hnd.1 (he ▸ List.mem_map.mpr ⟨v, hv, rfl⟩)
      rw [List.map_congr_left this]
      exact List.map_id' rest
    · have hne : u.id ≠ t.id := by
        intro he
        exact hnd.1 (he ▸ List.mem_map.mpr ⟨t, hmem, rfl⟩)
      rw [if_neg hne]
      congr 1
      exact ih hnd.2 hmem

theorem lookupTask_updateTask (tasks : List Task) (t' : Task) (x : String) :
    lookupTask (updateTask tasks t') x =
      if x = t'.id then (lookupTask tasks t'.id).map (fun _ => t')
      else lookupTask tasks x := by
  induction tasks with
  | nil =>
    unfold lookupTask updateTask
    simp only [List.map_nil, List.find?_nil, Option.map_none']
    split <;> rfl
  | cons u rest ih =>
    unfold lookupTask updateTask at ih ⊢
    rw [List.map_cons]
    by_cases hu : u.id = t'.id
    · rw [if_pos hu]
      by_cases hx : x = t'.id
      · rw [if_pos hx]
        rw [List.find?_cons_of_pos _ (by simp [hx]),
          List.find?_cons_of_pos _ (by simp [hu])]
        rfl
      · rw [if_neg hx]
        rw [List.find?_cons_of_neg _ (by simp; intro hc; exact hx hc.symm),
          List.find?_cons_of_neg _ (by simp [hu]; intro hc; exact hx hc.symm)]
        have h2 := ih
        rw [if_neg hx] at h2
        exact h2
    · rw [if_neg hu]
      by_cases hx : x = t'.id
      · rw [if_pos hx]
        rw [List.find?_cons_of_neg _ (by simp; rw [hx]; exact hu),
          List.find?_cons_of_neg _ (by simp [hu])]
        have h2 := ih
        rw [if_pos hx] at h2
        exact h2
      · rw [if_neg hx]
        by_cases hux : u.id = x
        · rw [List.find?_cons_of_pos _ (by simp [hux]),
            List.find?_cons_of_pos _ (by simp [hux])]
        · rw [List.find?_cons_of_neg _ (by simp [hux]),
            List.find?_cons_of_neg _ (by simp [hux])]
          have h2 := ih
          rw [if_neg hx] at h2
          exact h2

/-! ## The scheduling loop: generic invariant -/

/-- Any property of the task list and processed set that is preserved by
one task-processing step is an invariant of the whole `while queue:`
loop of `calculate_dates`. -/
theorem kahnLoop_inv (wd : List Int) (planStart : Option Int) (today : Int)
    (revD : List (String × List String)) (Inv : List Task → List String → Prop)
    (hstep : ∀ (fuel : Nat) (tasks : List Task) (processed : List String)
      (taskId : String) (task task' : Task),
      Inv tasks processed → taskId ∉ processed → lookupTask tasks taskId = some task →
      calcTaskDates wd planStart today tasks task fuel = some task' →
      Inv (updateTask tasks task') (processed ++ [taskId])) :
    ∀ (fuel : Nat) (queue : List String) (inDeg : List (String × Int))
      (tasks : List Task) (processed : List String)
      (out : List Task × List String × List (String × Int)),
      kahnLoop wd planStart today revD fuel queue inDeg tasks processed = some out →
      Inv tasks processed → Inv out.1 out.2.1 := by
  intro fuel
  induction fuel with
  | zero =>
    intro queue inDeg tasks processed out h hInv
    cases queue with
    | nil =>
      replace h : some (tasks, processed, inDeg) = some out := h
      rw [← Option.some.inj h]
      exact hInv
    | cons taskId rest => exact Option.noConfusion h
  | succ f ih =>
    intro queue inDeg tasks processed out h hInv
    cases queue with
    | nil =>
      replace h : some (tasks, processed, inDeg) = some out := h
      rw [← Option.some.inj h]
      exact hInv
    | cons taskId rest =>
      by_cases hmem : taskId ∈ processed
      · replace h : kahnLoop wd planStart today revD f rest inDeg tasks processed
            = some out := by
          rw [← h]
          show kahnLoop wd planStart today revD f rest inDeg tasks processed =
            kahnLoop wd planStart today revD (f + 1) (taskId :: rest) inDeg tasks processed
          rw [kahnLoop]
          rw [if_pos hmem]
        exact ih rest inDeg tasks processed out h hInv
      · replace h : (if taskId ∈ processed then
            kahnLoop wd planStart today revD f rest inDeg tasks processed
          else
            match lookupTask tasks taskId with
            | none => kahnLoop wd planStart today revD f rest inDeg tasks processed
            | some task =>
              match calcTaskDates wd planStart today tasks task f with
              | none => none
              | some task' =>
                let upd := stepDependents inDeg rest (lookupR revD taskId)
                kahnLoop wd planStart today revD f upd.2 upd.1
                  (updateTask tasks task') (processed ++ [taskId])) = some out := h
        rw [if_neg hmem] at h
        rcases hlk : lookupTask tasks taskId with _ | task
        · rw [hlk] at h
          exact ih rest inDeg tasks processed out h hInv
        · rw [hlk] at h
          replace h : (match calcTaskDates wd planStart today tasks task f with
            | none => none
            | some task' =>
              let upd := stepDependents inDeg rest (lookupR revD taskId)
              kahnLoop wd planStart today revD f upd.2 upd.1
                (updateTask tasks task') (processed ++ [taskId])) = some out := h
          rcases hcalc : calcTaskDates wd planStart today tasks task f with _ | task'
          · rw [hcalc] at h
            exact Option.noConfusion h
          · rw [hcalc] at h
            replace h : kahnLoop wd planStart today revD f
                (stepDependents inDeg rest (lookupR revD taskId)).2
                (stepDependents inDeg rest (lookupR revD taskId)).1
                (updateTask tasks task') (processed ++ [taskId]) = some out := h
            exact ih _ _ _ _ out h
              (hstep f tasks processed taskId task task' hInv hmem hlk hcalc)

/-- `_calculate_project_dates` never touches the task list. -/
theorem calcProjectDates_tasks (plan : ProjectPlan) :
    (calcProjectDates plan).tasks = plan.tasks := by
  unfold calcProjectDates
  split
  · rfl
  · split
    · split <;> rfl
    · split <;> rfl

/-- Unpacking an `ok` result of `calculate_dates`: the Kahn pass
returned, every task got processed, and the result's task list is the
loop's final task list. -/
theorem calculateDates_ok_elim (p : Processor) (today : Int) (fuel : Nat)
    (p' : ProjectPlan) (hok : (p.calculateDates today fuel).1 = .ok p') :
    ∃ tasks' processed inDeg',
      kahnRun p today fuel = some (tasks', processed, inDeg') ∧
      processed.length = p.plan.tasks.length ∧
      p'.tasks = tasks' := by
  unfold Processor.calculateDates at hok
  rcases hrun : kahnRun p today fuel with _ | tp
  · rw [hrun] at hok
    exact absurd hok (by simp)
  · rw [hrun] at hok
    obtain ⟨tasks', processed, inDeg'⟩ := tp
    replace hok : ((if processed.length = p.plan.tasks.length then
        ((RunResult.ok (calcProjectDates { p.plan with tasks := tasks' })),
         ({ plan := calcProjectDates { p.plan with tasks := tasks' },
            inDeg := inDeg', revD := p.revD } : Processor))
      else
        ((RunResult.cycleError
            ((tasks'.map (fun t => t.id)).filter (fun id => id ∉ processed))),
         ({ plan := { p.plan with tasks := tasks' },
            inDeg := inDeg', revD := p.revD } : Processor))).1) = RunResult.ok p' := hok
    by_cases hlen : processed.length = p.plan.tasks.length
    · refine ⟨tasks', processed, inDeg', rfl, hlen, ?_⟩
      rw [if_pos hlen] at hok
      replace hok : RunResult.ok (calcProjectDates { p.plan with tasks := tasks' }) =
        RunResult.ok p' := hok
      have := RunResult.ok.inj hok
      rw [← this, calcProjectDates_tasks]
    · rw [if_neg hlen] at hok
      exact RunResult.noConfusion hok

theorem nodup_append_singleton {l : List String} {a : String}
    (h : l.Nodup) (ha : a ∉ l) : (l ++ [a]).Nodup := by
  rw [List.nodup_append]
  refine ⟨h, by simp, ?_⟩
  intro x hx hxa
  rw [List.mem_singleton] at hxa
  exact ha (hxa ▸ hx)

/-- Invariants of the Kahn pass: the id list of the task list never
changes, the processed list is duplicate-free, and every processed id is
a task id. -/
theorem kahnRun_ids_inv (plan : ProjectPlan) (today : Int) (fuel : Nat)
    (tasks' : List Task) (processed : List String) (inDeg' : List (String × Int))
    (hrun : kahnRun (initProcessor plan) today fuel = some (tasks', processed, inDeg')) :
    idsOf tasks' = idsOf plan.tasks ∧ processed.Nodup ∧
      ∀ id ∈ processed, id ∈ idsOf tasks' := by
  have h := kahnLoop_inv plan.working_days plan.start_date today (revGraph plan.tasks)
    (fun tasks proc => idsOf tasks = idsOf plan.tasks ∧ proc.Nodup ∧
      ∀ id ∈ proc, id ∈ idsOf tasks)
    (by
      intro f tasks proc taskId task task' hInv hnotin hlk hcalc
      obtain ⟨hids, hnod, hmem⟩ := hInv
      refine ⟨by rw [idsOf_updateTask]; exact hids, nodup_append_singleton hnod hnotin, ?_⟩
      intro id hid
      rw [idsOf_updateTask]
      rcases List.mem_append.mp hid with h1 | h2
      · exact hmem id h1
      · rw [List.mem_singleton] at h2
        subst h2
        have hs : (lookupTask tasks id).isSome = true := by rw [hlk]; rfl
        exact lookupTask_isSome_iff.mp hs)
    fuel (queueInit (initProcessor plan)) (initialInDeg plan.tasks) plan.tasks []
    (tasks', processed, inDeg') hrun ⟨rfl, List.nodup_nil, by simp⟩
  exact h

/-- When the Kahn pass has processed as many tasks as the plan has,
every task id is processed. -/
theorem kahnRun_processed_all (plan : ProjectPlan) (today : Int) (fuel : Nat)
    (tasks' : List Task) (processed : List String) (inDeg' : List (String × Int))
    (hnd : (idsOf plan.tasks).Nodup)
    (hrun : kahnRun (initProcessor plan) today fuel = some (tasks', processed, inDeg'))
    (hlen : processed.length = plan.tasks.length) :
    idsOf tasks' = idsOf plan.tasks ∧ ∀ id ∈ idsOf tasks', id ∈ processed := by
  obtain ⟨hids, hndp, hsub⟩ := kahnRun_ids_inv plan today fuel tasks' processed inDeg' hrun
  refine ⟨hids, ?_⟩
  have hlen2 : (idsOf tasks').length = processed.length := by
    rw [hids]
    unfold idsOf
    rw [List.length_map]
    exact hlen.symm
  have hsub' : processed.toFinset ⊆ (idsOf tasks').toFinset := fun x hx =>
    List.mem_toFinset.mpr (hsub x (List.mem_toFinset.mp hx))
  have hcard : (idsOf tasks').toFinset.card ≤ processed.toFinset.card := by
    rw [List.toFinset_card_of_nodup hndp, List.toFinset_card_of_nodup (hids ▸ hnd)]
    omega
  have heq := Finset.eq_of_subset_of_card_le hsub' hcard
  intro id hid
  have h2 : id ∈ (idsOf tasks').toFinset := List.mem_toFinset.mpr hid
  rw [← heq] at h2
  exact List.mem_toFinset.mp h2

/-- Any per-task postcondition of `_calculate_task_dates` holds of the
final record of every processed task. -/
theorem kahnRun_processed_prop (P : Task → Prop)
    (hP : ∀ (wd : List Int) (planStart : Option Int) (today : Int)
      (tasks : List Task) (t : Task) (fuel : Nat) (t' : Task),
      calcTaskDates wd planStart today tasks t fuel = some t' → P t')
    (plan : ProjectPlan) (today : Int) (fuel : Nat)
    (tasks' : List Task) (processed : List String) (inDeg' : List (String × Int))
    (hrun : kahnRun (initProcessor plan) today fuel = some (tasks', processed, inDeg')) :
    ∀ id ∈ processed, ∃ t, lookupTask tasks' id = some t ∧ P t := by
  have h := kahnLoop_inv plan.working_days plan.start_date today (revGraph plan.tasks)
    (fun tasks proc => ∀ id ∈ proc, ∃ t, lookupTask tasks id = some t ∧ P t)
    (by
      intro f tasks proc taskId task task' hInv hnotin hlk hcalc
      have htid : task'.id = taskId := by
        rw [(calcTaskDates_fields _ _ _ _ _ _ _ hcalc).1, (lookupTask_mem hlk).2]
      intro id hid
      rw [lookupTask_updateTask]
      rcases List.mem_append.mp hid with h1 | h2
      · obtain ⟨t, hlt, hPt⟩ := hInv id h1
        rw [if_neg (by rw [htid]; intro hc; exact hnotin (hc ▸ h1))]
        exact ⟨t, hlt, hPt⟩
      · rw [List.mem_singleton] at h2
        subst h2
        rw [if_pos htid.symm, htid, hlk]
        exact ⟨task', rfl, hP _ _ _ _ _ _ _ hcalc⟩)
    fuel (queueInit (initProcessor plan)) (initialInDeg plan.tasks) plan.tasks []
    (tasks', processed, inDeg') hrun (by simp)
  exact h

/-! ## Claim C3: the milestone invariant -/

/-- C3: whenever `calculate_dates` returns normally on a plan with
unique task ids, every milestone task ends the run with duration 0 and
`start_date = end_date` (the 0-duration derivation passes `-1` working
days, which leaves the date unchanged). -/
theorem c3_milestone_invariant (plan : ProjectPlan) (today : Int) (fuel : Nat)
    (p' : ProjectPlan) (hnd : (idsOf plan.tasks).Nodup)
    (hok : ((initProcessor plan).calculateDates today fuel).1 = .ok p') :
    ∀ t ∈ p'.tasks, t.is_milestone = true →
      t.duration = some 0 ∧ t.start_date = t.end_date := by
  obtain ⟨tasks', processed, inDeg', hrun, hlen, htasks⟩ :=
    calculateDates_ok_elim (initProcessor plan) today fuel p' hok
  have hall := kahnRun_processed_all plan today fuel tasks' processed inDeg' hnd hrun hlen
  have hprop := kahnRun_processed_prop
    (fun t => t.is_milestone = true → t.duration = some 0 ∧ t.end_date = t.start_date)
    (by
      intro wd planStart tod tasks t0 f t' hcalc hmil
      have hfields := calcTaskDates_fields wd planStart tod tasks t0 f t' hcalc
      have hm0 : t0.is_milestone = true := by rw [← hfields.2.2.2]; exact hmil
      have hz : (milestoneStep t0).duration = some 0 := by
        unfold milestoneStep
        rw [if_pos hm0]
      obtain ⟨h1, h2, _⟩ :=
        calcTaskDates_zero_duration wd planStart tod tasks t0 f t' hcalc hz
      exact ⟨h1, h2⟩)
    plan today fuel tasks' processed inDeg' hrun
  intro t ht hmil
  rw [htasks] at ht
  have hid : t.id ∈ processed := by
    refine hall.2 t.id ?_
    unfold idsOf
    exact List.mem_map.mpr ⟨t, ht, rfl⟩
  obtain ⟨u, hlu, hPu⟩ := hprop t.id hid
  have hnd' : (idsOf tasks').Nodup := by rw [hall.1]; exact hnd
  have hlt : lookupTask tasks' t.id = some t := lookupTask_of_mem tasks' t hnd' ht
  rw [hlt] at hlu
  have hut : u = t := Option.some.inj hlu.symm
  subst hut
  obtain ⟨hd, he⟩ := hPu hmil
  exact ⟨hd, he.symm⟩

/-- C3 witness: the lone-milestone plan schedules to
`start = end = 2024-01-01` with duration 0. -/
theorem c3_milestone_witness :
    (mkTask "M" [] (some 738886) (some 738886) (some 0) true).duration = some 0 ∧
    (mkTask "M" [] (some 738886) (some 738886) (some 0) true).start_date =
      (mkTask "M" [] (some 738886) (some 738886) (some 0) true).end_date :=
  c3_milestone_invariant c3WitnessPlan 0 40
    { tasks := [mkTask "M" [] (some 738886) (some 738886) (some 0) true],
      start_date := some 738886, end_date := some 738886, working_days := wdMonFri }
    (by decide) (by decide)
    (mkTask "M" [] (some 738886) (some 738886) (some 0) true) (by decide) (by decide)

/-! ## Claim C9: resolvedness after a successful run -/

/-- C9 counterexample: the plan with the single task T carrying only a
start date schedules successfully, yet T ends the run with `end_date`
and `duration` still unresolved — refuting "every task ends the run with
all three of start_date, end_date, duration resolved". -/
theorem c9_counterexample :
    ((initProcessor c9Plan).calculateDates 0 40).1 = .ok
      { tasks := [mkTask "T" [] (some 738886) none none false],
        start_date := some 738886, end_date := none, working_days := wdMonFri } ∧
    (mkTask "T" [] (some 738886) none none false).end_date = none ∧
    (mkTask "T" [] (some 738886) none none false).duration = none := by
  refine ⟨by decide, by decide, by decide⟩

/-- C9 (amended): whenever `calculate_dates` returns normally on a plan
with unique task ids, every task ends the run with `start_date` resolved
(the fallback guarantees it), and any task with a resolved duration also
has a resolved end date; tasks with neither a duration nor an end date
keep those two fields unresolved (see the counterexample). -/
theorem c9_start_resolved (plan : ProjectPlan) (today : Int) (fuel : Nat)
    (p' : ProjectPlan) (hnd : (idsOf plan.tasks).Nodup)
    (hok : ((initProcessor plan).calculateDates today fuel).1 = .ok p') :
    ∀ t ∈ p'.tasks, t.start_date ≠ none ∧ (t.duration ≠ none → t.end_date ≠ none) := by
  obtain ⟨tasks', processed, inDeg', hrun, hlen, htasks⟩ :=
    calculateDates_ok_elim (initProcessor plan) today fuel p' hok
  have hall := kahnRun_processed_all plan today fuel tasks' processed inDeg' hnd hrun hlen
  have hprop := kahnRun_processed_prop
    (fun t => t.start_date ≠ none ∧ (t.duration ≠ none → t.end_date ≠ none))
    (by
      intro wd planStart tod tasks t0 f t' hcalc
      constructor
      · have := calcTaskDates_start_isSome wd planStart tod tasks t0 f t' hcalc
        exact Option.isSome_iff_ne_none.mp this
      · intro hdur
        have := calcTaskDates_duration_end wd planStart tod tasks t0 f t' hcalc
          (Option.isSome_iff_ne_none.mpr hdur)
        exact Option.isSome_iff_ne_none.mp this)
    plan today fuel tasks' processed inDeg' hrun
  intro t ht
  rw [htasks] at ht
  have hid : t.id ∈ processed := by
    refine hall.2 t.id ?_
    unfold idsOf
    exact List.mem_map.mpr ⟨t, ht, rfl⟩
  obtain ⟨u, hlu, hPu⟩ := hprop t.id hid
  have hnd' : (idsOf tasks').Nodup := by rw [hall.1]; exact hnd
  have hlt : lookupTask tasks' t.id = some t := lookupTask_of_mem tasks' t hnd' ht
  rw [hlt] at hlu
  have hut : u = t := Option.some.inj hlu.symm
  subst hut
  exact hPu

/-- C9 witness: the amended theorem evaluated on the counterexample plan
itself: T keeps its start date; its unresolved duration makes the second
conjunct vacuous. -/
theorem c9_start_resolved_witness :
    (mkTask "T" [] (some 738886) none none false).start_date ≠ none ∧
    ((mkTask "T" [] (some 738886) none none false).duration ≠ none →
      (mkTask "T" [] (some 738886) none none false).end_date ≠ none) :=
  c9_start_resolved c9Plan 0 40
    { tasks := [mkTask "T" [] (some 738886) none none false],
      start_date := some 738886, end_date := none, working_days := wdMonFri }
    (by decide) (by decide)
    (mkTask "T" [] (some 738886) none none false) (by decide)

/-! ## Claim C5: idempotence / fixpoint of scheduling -/

/-- C5 counterexample: the fully-dated plan `c5Plan` (T: start Monday
2024-01-01, end the same Monday, duration 2) is rewritten by
`calculate_dates`: T's end date becomes Tuesday 2024-01-02 (738887) —
refuting "calculate_dates leaves every already-fully-dated plan's task
dates unchanged". -/
theorem c5_counterexample :
    ((initProcessor c5Plan).calculateDates 0 40).1 = .ok
      { tasks := [mkTask "T" [] (some 738886) (some 738887) (some 2) false],
        start_date := some 738886, end_date := some 738887,
        working_days := wdMonFri } ∧
    c5Plan.tasks = [mkTask "T" [] (some 738886) (some 738886) (some 2) false] ∧
    mkTask "T" [] (some 738886) (some 738887) (some 2) false ≠
      mkTask "T" [] (some 738886) (some 738886) (some 2) false := by
  refine ⟨by decide, by decide, by decide⟩

/-- C5 (amended): a fully-dated plan is left unchanged by
`calculate_dates` when it is *consistent* — milestone durations are 0,
each end date is what `add_working_days(start, duration - 1)` computes,
and each task with dependencies starts one working day after its latest
dependency end.  (An inconsistent fully-dated plan is rewritten: see the
counterexample.  Rerunning on the output needs consistency of that
output, which the first run does not always establish.) -/
theorem c5_consistent_fixpoint (plan : ProjectPlan) (today : Int) (fuel : Nat)
    (p' : ProjectPlan) (hnd : (idsOf plan.tasks).Nodup)
    (hcons : ConsistentPlan plan)
    (hok : ((initProcessor plan).calculateDates today fuel).1 = .ok p') :
    p'.tasks = plan.tasks := by
  obtain ⟨tasks', processed, inDeg', hrun, hlen, htasks⟩ :=
    calculateDates_ok_elim (initProcessor plan) today fuel p' hok
  have h := kahnLoop_inv plan.working_days plan.start_date today (revGraph plan.tasks)
    (fun tasks _ => tasks = plan.tasks)
    (by
      intro f tasks proc taskId task task' hInv hnotin hlk hcalc
      subst hInv
      have htm : task ∈ plan.tasks := (lookupTask_mem hlk).1
      have hfix : task' = task :=
        calcTaskDates_fixpoint plan.working_days plan.start_date today plan.tasks
          task f task' (hcons task htm) hcalc
      rw [hfix, updateTask_self plan.tasks task hnd htm])
    fuel (queueInit (initProcessor plan)) (initialInDeg plan.tasks) plan.tasks []
    (tasks', processed, inDeg') hrun rfl
  rw [htasks]
  exact h

/-- C5 witness: the consistent one-task plan (Mon 2024-01-01 to Tue
2024-01-02, duration 2) is a fixpoint. -/
theorem c5_consistent_fixpoint_witness :
    ({ tasks := [mkTask "T" [] (some 738886) (some 738887) (some 2) false],
       start_date := some 738886, end_date := some 738887,
       working_days := wdMonFri } : ProjectPlan).tasks = c5WitnessPlan.tasks :=
  c5_consistent_fixpoint c5WitnessPlan 0 40
    { tasks := [mkTask "T" [] (some 738886) (some 738887) (some 2) false],
      start_date := some 738886, end_date := some 738887, working_days := wdMonFri }
    (by decide)
    (by
      intro t ht
      have ht' : t = mkTask "T" [] (some 738886) (some 738887) (some 2) false := by
        simpa [c5WitnessPlan] using ht
      subst ht'
      refine ⟨738886, 738887, 2, rfl, rfl, rfl, by simp [mkTask], ⟨10, by decide⟩, ?_⟩
      intro le hle
      simp [latestDepEnd, mkTask] at hle)
    (by decide)

/-! ## In-degree dict lemmas -/

theorem updateD_keys (l : List (String × Int)) (k : String) (v : Int) :
    (updateD l k v).map Prod.fst = l.map Prod.fst := by
  unfold updateD
  rw [List.map_map]
  apply List.map_congr_left
  intro q _
  simp only [Function.comp_apply]
  split
  · rename_i he
    exact he.symm
  · rfl

theorem lookupD_updateD_self (l : List (String × Int)) (k : String) (v : Int)
    (hk : k ∈ l.map Prod.fst) : lookupD (updateD l k v) k = v := by
  induction l with
  | nil => cases hk
  | cons q rest ih =>
    unfold updateD lookupD at ih ⊢
    rw [List.map_cons]
    by_cases hq : q.1 = k
    · rw [if_pos hq, List.find?_cons_of_pos _ (by simp)]
      rfl
    · rw [if_neg hq, List.find?_cons_of_neg _ (by simp [hq])]
      rw [List.map_cons] at hk
      rcases List.mem_cons.mp hk with h1 | h2
      · exact absurd h1.symm hq
      · exact ih h2

theorem lookupD_updateD_other (l : List (String × Int)) (k : String) (v : Int)
    (x : String) (hx : x ≠ k) : lookupD (updateD l k v) x = lookupD l x := by
  induction l with
  | nil => rfl
  | cons q rest ih =>
    unfold updateD lookupD at ih ⊢
    rw [List.map_cons]
    by_cases hq : q.1 = k
    · rw [if_pos hq,
        List.find?_cons_of_neg _ (by simp; exact fun hc => hx hc.symm),
        List.find?_cons_of_neg _ (by rw [hq]; simp; exact fun hc => hx hc.symm)]
      exact ih
    · rw [if_neg hq]
      by_cases hqx : q.1 = x
      · rw [List.find?_cons_of_pos _ (by simp [hqx]),
          List.find?_cons_of_pos _ (by simp [hqx])]
      · rw [List.find?_cons_of_neg _ (by simp [hqx]),
          List.find?_cons_of_neg _ (by simp [hqx])]
        exact ih

theorem lookupD_initialInDeg (tasks : List Task) (id : String) :
    lookupD (initialInDeg tasks) id = ((depsOf tasks id).length : Int) := by
  induction tasks with
  | nil => rfl
  | cons t rest ih =>
    by_cases ht : t.id = id
    · have h2 : lookupTask (t :: rest) id = some t := by
        unfold lookupTask
        rw [List.find?_cons_of_pos _ (by simp [ht])]
      unfold lookupD initialInDeg
      rw [List.map_cons, List.find?_cons_of_pos _ (by simp [ht])]
      unfold depsOf
      rw [h2]
      rfl
    · have h2 : lookupTask (t :: rest) id = lookupTask rest id := by
        unfold lookupTask
        rw [List.find?_cons_of_neg _ (by simp [ht])]
      unfold lookupD initialInDeg
      rw [List.map_cons, List.find?_cons_of_neg _ (by simp [ht])]
      unfold depsOf
      rw [h2]
      exact ih

theorem initialInDeg_keys (tasks : List Task) :
    (initialInDeg tasks).map Prod.fst = idsOf tasks := by
  unfold initialInDeg idsOf
  rw [List.map_map]
  rfl

theorem lookupR_mapGraph (tasks0 : List Task) (tasks : List Task) (q : String) :
    q ∈ idsOf tasks →
    lookupR (tasks.map (fun t => (t.id, revDepsOf tasks0 t.id))) q =
      revDepsOf tasks0 q := by
  induction tasks with
  | nil => intro hq; cases hq
  | cons t rest ih =>
    intro hq
    by_cases ht : t.id = q
    · unfold lookupR
      rw [List.map_cons, List.find?_cons_of_pos _ (by simp [ht])]
      show revDepsOf tasks0 t.id = revDepsOf tasks0 q
      rw [ht]
    · unfold lookupR at ih ⊢
      rw [List.map_cons, List.find?_cons_of_neg _ (by simp [ht])]
      unfold idsOf at hq
      rw [List.map_cons] at hq
      rcases List.mem_cons.mp hq with h1 | h2
      · exact absurd h1.symm ht
      · exact ih h2

theorem lookupR_revGraph (tasks : List Task) (q : String) (hq : q ∈ idsOf tasks) :
    lookupR (revGraph tasks) q = revDepsOf tasks q :=
  lookupR_mapGraph tasks tasks q hq

theorem mem_revDepsOf {tasks : List Task} {q x : String} :
    x ∈ revDepsOf tasks q ↔ ∃ t ∈ tasks, t.id = x ∧ q ∈ t.dependencies := by
  unfold revDepsOf
  rw [List.mem_map]
  constructor
  · rintro ⟨t, htf, rfl⟩
    rw [List.mem_filter] at htf
    exact ⟨t, htf.1, rfl, by simpa using htf.2⟩
  · rintro ⟨t, ht, rfl, hq⟩
    exact ⟨t, List.mem_filter.mpr ⟨ht, by simpa using hq⟩, rfl⟩

theorem revDepsOf_nodup (tasks : List Task) (hnd : (idsOf tasks).Nodup)
    (q : String) : (revDepsOf tasks q).Nodup := by
  unfold revDepsOf
  have hsub : List.Sublist
      ((tasks.filter (fun t => q ∈ t.dependencies)).map (fun t => t.id))
      (tasks.map (fun t => t.id)) :=
    List.Sublist.map _ (List.filter_sublist tasks)
  exact List.Nodup.sublist hsub hnd

theorem mem_revDepsOf_iff_deps (tasks : List Task) (hnd : (idsOf tasks).Nodup)
    (q x : String) :
    x ∈ revDepsOf tasks q ↔ x ∈ idsOf tasks ∧ q ∈ depsOf tasks x := by
  rw [mem_revDepsOf]
  constructor
  · rintro ⟨t, ht, rfl, hq⟩
    refine ⟨List.mem_map.mpr ⟨t, ht, rfl⟩, ?_⟩
    unfold depsOf
    rw [lookupTask_of_mem tasks t hnd ht]
    exact hq
  · rintro ⟨hx, hq⟩
    obtain ⟨t, ht, rfl⟩ := List.mem_map.mp hx
    refine ⟨t, ht, rfl, ?_⟩
    unfold depsOf at hq
    rw [lookupTask_of_mem tasks t hnd ht] at hq
    exact hq

theorem count_filter_append (proc : List String) (a : String) (ha : a ∉ proc) :
    ∀ l : List String, l.Nodup →
      (l.filter (fun d => d ∈ proc ++ [a])).length =
        (l.filter (fun d => d ∈ proc)).length + (if a ∈ l then 1 else 0) := by
  intro l
  induction l with
  | nil => intro _; rfl
  | cons x xs ih =>
    intro hnd
    rw [List.nodup_cons] at hnd
    by_cases hxa : x = a
    · subst hxa
      rw [List.filter_cons, List.filter_cons,
        if_pos (by simp), if_neg (by simpa using ha),
        List.length_cons, ih hnd.2, if_neg hnd.1, if_pos (List.mem_cons_self x xs)]
    · rw [List.filter_cons, List.filter_cons]
      have hiff : (a ∈ x :: xs) ↔ (a ∈ xs) := by
        constructor
        · intro h
          rcases List.mem_cons.mp h with h1 | h2
          · exact absurd h1.symm hxa
          · exact h2
        · exact fun h => List.mem_cons_of_mem x h
      rw [if_congr hiff rfl rfl]
      by_cases hxp : x ∈ proc
      · rw [if_pos (by simp [List.mem_append, hxp]), if_pos (by simpa using hxp),
          List.length_cons, List.length_cons, ih hnd.2]
        omega
      · have hxpa : x ∉ proc ++ [a] := by
          simp only [List.mem_append, List.mem_singleton]
          rintro (h1 | h2)
          · exact hxp h1
          · exact hxa h2
        rw [if_neg (by simpa using hxpa), if_neg (by simpa using hxp), ih hnd.2]

/-! ## `stepDependents` characterization -/

theorem stepDependents_unfold (inDeg : List (String × Int)) (queue : List String)
    (y : String) (ds : List String) :
    stepDependents inDeg queue (y :: ds) =
      stepDependents (updateD inDeg y (lookupD inDeg y - 1))
        (if lookupD inDeg y - 1 = 0 then queue ++ [y] else queue) ds := rfl

theorem stepDependents_keys (dependents : List String) :
    ∀ (inDeg : List (String × Int)) (queue : List String),
      (stepDependents inDeg queue dependents).1.map Prod.fst = inDeg.map Prod.fst := by
  induction dependents with
  | nil => intro inDeg queue; rfl
  | cons y ds ih =>
    intro inDeg queue
    rw [stepDependents_unfold, ih, updateD_keys]

theorem stepDependents_deg (dependents : List String) :
    ∀ (inDeg : List (String × Int)) (queue : List String) (x : String),
      dependents.Nodup → (∀ d ∈ dependents, d ∈ inDeg.map Prod.fst) →
      lookupD (stepDependents inDeg queue dependents).1 x =
        if x ∈ dependents then lookupD inDeg x - 1 else lookupD inDeg x := by
  induction dependents with
  | nil =>
    intro inDeg queue x _ _
    rw [if_neg (List.not_mem_nil x)]
    rfl
  | cons y ds ih =>
    intro inDeg queue x hnd hkeys
    rw [List.nodup_cons] at hnd
    rw [stepDependents_unfold]
    have hkeys' : ∀ d ∈ ds, d ∈ (updateD inDeg y (lookupD inDeg y - 1)).map Prod.fst := by
      intro d hd
      rw [updateD_keys]
      exact hkeys d (List.mem_cons_of_mem y hd)
    rw [ih _ _ x hnd.2 hkeys']
    by_cases hx : x = y
    · rw [hx, if_neg hnd.1, if_pos (List.mem_cons_self y ds)]
      exact lookupD_updateD_self inDeg y _ (hkeys y (List.mem_cons_self y ds))
    · rw [lookupD_updateD_other inDeg y _ x hx]
      by_cases hxd : x ∈ ds
      · rw [if_pos hxd, if_pos (List.mem_cons_of_mem y hxd)]
      · rw [if_neg hxd, if_neg (by
          intro h
          rcases List.mem_cons.mp h with h1 | h2
          · exact hx h1
          · exact hxd h2)]

theorem stepDependents_queue (dependents : List String) :
    ∀ (inDeg : List (String × Int)) (queue : List String),
      dependents.Nodup → (∀ d ∈ dependents, d ∈ inDeg.map Prod.fst) →
      (stepDependents inDeg queue dependents).2 =
        queue ++ dependents.filter (fun d => lookupD inDeg d - 1 = 0) := by
  induction dependents with
  | nil => intro inDeg queue _ _; exact (List.append_nil queue).symm
  | cons y ds ih =>
    intro inDeg queue hnd hkeys
    rw [List.nodup_cons] at hnd
    rw [stepDependents_unfold, ih _ _ hnd.2 (fun d hd => by
      rw [updateD_keys]
      exact hkeys d (List.mem_cons_of_mem y hd))]
    have hfilter :
        ds.filter (fun d => lookupD (updateD inDeg y (lookupD inDeg y - 1)) d - 1 = 0) =
        ds.filter (fun d => lookupD inDeg d - 1 = 0) := by
      apply List.filter_congr
      intro d hd
      have hne : d ≠ y := fun he => hnd.1 (he ▸ hd)
      show decide (lookupD (updateD inDeg y (lookupD inDeg y - 1)) d - 1 = 0) =
        decide (lookupD inDeg d - 1 = 0)
      rw [lookupD_updateD_other inDeg y _ d hne]
    rw [hfilter]
    by_cases hy : lookupD inDeg y - 1 = 0
    · rw [if_pos hy, List.filter_cons, if_pos (by simpa using hy), List.append_assoc]
      rfl
    · rw [if_neg hy, List.filter_cons, if_neg (by simpa using hy)]

/-! ## Reduction helpers for one iteration of the scheduling loop -/

theorem kahnLoop_skip_processed (wd : List Int) (planStart : Option Int) (today : Int)
    (revD : List (String × List String)) (f : Nat) (taskId : String)
    (rest : List String) (inDeg : List (String × Int)) (tasks : List Task)
    (processed : List String) (h : taskId ∈ processed) :
    kahnLoop wd planStart today revD (f + 1) (taskId :: rest) inDeg tasks processed =
      kahnLoop wd planStart today revD f rest inDeg tasks processed := by
  rw [kahnLoop]
  rw [if_pos h]

theorem kahnLoop_skip_missing (wd : List Int) (planStart : Option Int) (today : Int)
    (revD : List (String × List String)) (f : Nat) (taskId : String)
    (rest : List String) (inDeg : List (String × Int)) (tasks : List Task)
    (processed : List String) (hni : taskId ∉ processed)
    (hlk : lookupTask tasks taskId = none) :
    kahnLoop wd planStart today revD (f + 1) (taskId :: rest) inDeg tasks processed =
      kahnLoop wd planStart today revD f rest inDeg tasks processed := by
  show (if taskId ∈ processed then
      kahnLoop wd planStart today revD f rest inDeg tasks processed
    else
      match lookupTask tasks taskId with
      | none => kahnLoop wd planStart today revD f rest inDeg tasks processed
      | some task =>
        match calcTaskDates wd planStart today tasks task f with
        | none => none
        | some task' =>
          let upd := stepDependents inDeg rest (lookupR revD taskId)
          kahnLoop wd planStart today revD f upd.2 upd.1
            (updateTask tasks task') (processed ++ [taskId])) =
    kahnLoop wd planStart today revD f rest inDeg tasks processed
  rw [if_neg hni, hlk]

theorem kahnLoop_step_eq (wd : List Int) (planStart : Option Int) (today : Int)
    (revD : List (String × List String)) (f : Nat) (taskId : String)
    (rest : List String) (inDeg : List (String × Int)) (tasks : List Task)
    (processed : List String) (task task' : Task) (hni : taskId ∉ processed)
    (hlk : lookupTask tasks taskId = some task)
    (hcalc : calcTaskDates wd planStart today tasks task f = some task') :
    kahnLoop wd planStart today revD (f + 1) (taskId :: rest) inDeg tasks processed =
      kahnLoop wd planStart today revD f
        (stepDependents inDeg rest (lookupR revD taskId)).2
        (stepDependents inDeg rest (lookupR revD taskId)).1
        (updateTask tasks task') (processed ++ [taskId]) := by
  show (if taskId ∈ processed then
      kahnLoop wd planStart today revD f rest inDeg tasks processed
    else
      match lookupTask tasks taskId with
      | none => kahnLoop wd planStart today revD f rest inDeg tasks processed
      | some task =>
        match calcTaskDates wd planStart today tasks task f with
        | none => none
        | some task' =>
          let upd := stepDependents inDeg rest (lookupR revD taskId)
          kahnLoop wd planStart today revD f upd.2 upd.1
            (updateTask tasks task') (processed ++ [taskId])) = _
  rw [if_neg hni, hlk]
  show (match calcTaskDates wd planStart today tasks task f with
    | none => none
    | some task' =>
      let upd := stepDependents inDeg rest (lookupR revD taskId)
      kahnLoop wd planStart today revD f upd.2 upd.1
        (updateTask tasks task') (processed ++ [taskId])) = _
  rw [hcalc]

theorem kahnLoop_calc_none (wd : List Int) (planStart : Option Int) (today : Int)
    (revD : List (String × List String)) (f : Nat) (taskId : String)
    (rest : List String) (inDeg : List (String × Int)) (tasks : List Task)
    (processed : List String) (task : Task) (hni : taskId ∉ processed)
    (hlk : lookupTask tasks taskId = some task)
    (hcalc : calcTaskDates wd planStart today tasks task f = none) :
    kahnLoop wd planStart today revD (f + 1) (taskId :: rest) inDeg tasks processed =
      none := by
  show (if taskId ∈ processed then
      kahnLoop wd planStart today revD f rest inDeg tasks processed
    else
      match lookupTask tasks taskId with
      | none => kahnLoop wd planStart today revD f rest inDeg tasks processed
      | some task =>
        match calcTaskDates wd planStart today tasks task f with
        | none => none
        | some task' =>
          let upd := stepDependents inDeg rest (lookupR revD taskId)
          kahnLoop wd planStart today revD f upd.2 upd.1
            (updateTask tasks task') (processed ++ [taskId])) = none
  rw [if_neg hni, hlk]
  show (match calcTaskDates wd planStart today tasks task f with
    | none => none
    | some task' =>
      let upd := stepDependents inDeg rest (lookupR revD taskId)
      kahnLoop wd planStart today revD f upd.2 upd.1
        (updateTask tasks task') (processed ++ [taskId])) = none
  rw [hcalc]

/-! ## Fuel monotonicity and totality of the scheduling loop -/

theorem kahnLoop_mono (wd : List Int) (planStart : Option Int) (today : Int)
    (revD : List (String × List String)) :
    ∀ (f : Nat) (queue : List String) (inDeg : List (String × Int))
      (tasks : List Task) (processed : List String)
      (out : List Task × List String × List (String × Int)) (f' : Nat), f ≤ f' →
      kahnLoop wd planStart today revD f queue inDeg tasks processed = some out →
      kahnLoop wd planStart today revD f' queue inDeg tasks processed = some out := by
  intro f
  induction f with
  | zero =>
    intro queue inDeg tasks processed out f' _ h
    cases queue with
    | nil =>
      replace h : some (tasks, processed, inDeg) = some out := h
      cases f' with
      | zero => exact h
      | succ k => exact h
    | cons taskId rest => exact Option.noConfusion h
  | succ f ih =>
    intro queue inDeg tasks processed out f' hle h
    cases queue with
    | nil =>
      replace h : some (tasks, processed, inDeg) = some out := h
      cases f' with
      | zero => exact h
      | succ k => exact h
    | cons taskId rest =>
      obtain ⟨k, rfl⟩ : ∃ k, f' = k + 1 := by
        cases f' with
        | zero => omega
        | succ k => exact ⟨k, rfl⟩
      have hk : f ≤ k := by omega
      by_cases hmem : taskId ∈ processed
      · rw [kahnLoop_skip_processed wd planStart today revD f taskId rest inDeg tasks
          processed hmem] at h
        rw [kahnLoop_skip_processed wd planStart today revD k taskId rest inDeg tasks
          processed hmem]
        exact ih rest inDeg tasks processed out k hk h
      · rcases hlk : lookupTask tasks taskId with _ | task
        · rw [kahnLoop_skip_missing wd planStart today revD f taskId rest inDeg tasks
            processed hmem hlk] at h
          rw [kahnLoop_skip_missing wd planStart today revD k taskId rest inDeg tasks
            processed hmem hlk]
          exact ih rest inDeg tasks processed out k hk h
        · replace h : (if taskId ∈ processed then
              kahnLoop wd planStart today revD f rest inDeg tasks processed
            else
              match lookupTask tasks taskId with
              | none => kahnLoop wd planStart today revD f rest inDeg tasks processed
              | some task =>
                match calcTaskDates wd planStart today tasks task f with
                | none => none
                | some task' =>
                  let upd := stepDependents inDeg rest (lookupR revD taskId)
                  kahnLoop wd planStart today revD f upd.2 upd.1
                    (updateTask tasks task') (processed ++ [taskId])) = some out := h
          rw [if_neg hmem, hlk] at h
          replace h : (match calcTaskDates wd planStart today tasks task f with
            | none => none
            | some task' =>
              let upd := stepDependents inDeg rest (lookupR revD taskId)
              kahnLoop wd planStart today revD f upd.2 upd.1
                (updateTask tasks task') (processed ++ [taskId])) = some out := h
          rcases hcalc : calcTaskDates wd planStart today tasks task f with _ | task'
          · rw [hcalc] at h
            exact Option.noConfusion h
          · rw [hcalc] at h
            replace h : kahnLoop wd planStart today revD f
                (stepDependents inDeg rest (lookupR revD taskId)).2
                (stepDependents inDeg rest (lookupR revD taskId)).1
                (updateTask tasks task') (processed ++ [taskId]) = some out := h
            have hcalc' : calcTaskDates wd planStart today tasks task k = some task' :=
              calcTaskDates_mono wd planStart today tasks task f k task' hcalc hk
            rw [kahnLoop_step_eq wd planStart today revD k taskId rest inDeg tasks
              processed task task' hmem hlk hcalc']
            exact ih _ _ _ _ out k hk h

theorem filter_length_le (p q : String → Bool) :
    ∀ (l : List String), (∀ x ∈ l, q x = true → p x = true) →
      (l.filter q).length ≤ (l.filter p).length := by
  intro l
  induction l with
  | nil => intro _; exact Nat.le_refl 0
  | cons y ys ih =>
    intro himp
    rw [List.filter_cons, List.filter_cons]
    have ih' := ih (fun x hx => himp x (List.mem_cons_of_mem y hx))
    by_cases hq : q y = true
    · rw [if_pos hq, if_pos (himp y (List.mem_cons_self y ys) hq)]
      exact Nat.succ_le_succ ih'
    · rw [if_neg hq]
      split
      · exact Nat.le_succ_of_le ih'
      · exact ih'

theorem filter_length_lt (p q : String → Bool) :
    ∀ (l : List String), (∀ x ∈ l, q x = true → p x = true) →
      ∀ x0, x0 ∈ l → p x0 = true → q x0 = false →
      (l.filter q).length < (l.filter p).length := by
  intro l
  induction l with
  | nil => intro _ x0 hx0; cases hx0
  | cons y ys ih =>
    intro himp x0 hx0 hp hq
    rw [List.filter_cons, List.filter_cons]
    have himp' : ∀ x ∈ ys, q x = true → p x = true :=
      fun x hx => himp x (List.mem_cons_of_mem y hx)
    rcases List.mem_cons.mp hx0 with rfl | hmem
    · rw [if_pos hp, if_neg (by rw [hq]; exact Bool.false_ne_true)]
      exact Nat.lt_succ_of_le (filter_length_le p q ys himp')
    · by_cases hqy : q y = true
      · rw [if_pos hqy, if_pos (himp y (List.mem_cons_self y ys) hqy)]
        exact Nat.succ_lt_succ (ih himp' x0 hmem hp hq)
      · rw [if_neg hqy]
        by_cases hpy : p y = true
        · rw [if_pos hpy]
          exact Nat.lt_succ_of_lt (ih himp' x0 hmem hp hq)
        · rw [if_neg hpy]
          exact ih himp' x0 hmem hp hq

/-- Processing a new task strictly decreases the number of unprocessed
task-list entries. -/
theorem measureU_lt (tasks : List Task) (task' : Task) (processed : List String)
    (taskId : String) (hid : taskId ∈ idsOf tasks) (hni : taskId ∉ processed) :
    measureU (updateTask tasks task') (processed ++ [taskId]) <
      measureU tasks processed := by
  unfold measureU
  rw [idsOf_updateTask]
  apply filter_length_lt _ _ (idsOf tasks) _ taskId hid
  · simp only [decide_eq_true_eq]
    exact hni
  · simp only [decide_eq_false_iff_not, Decidable.not_not]
    exact List.mem_append_right processed (List.mem_singleton.mpr rfl)
  · intro x hx hqx
    simp only [decide_eq_true_eq] at hqx ⊢
    intro hxp
    exact hqx (List.mem_append_left _ hxp)

/-- With a usable working-day list, the scheduling loop terminates: some
fuel makes it return, whatever the queue, in-degree dict, task list and
processed list. -/
theorem kahnLoop_total (wd : List Int) (planStart : Option Int) (today : Int)
    (revD : List (String × List String)) (hwd : HasValidWorkingDay wd) :
    ∀ (N : Nat) (queue : List String) (inDeg : List (String × Int))
      (tasks : List Task) (processed : List String),
      measureU tasks processed ≤ N →
      ∃ f out, kahnLoop wd planStart today revD f queue inDeg tasks processed =
        some out := by
  intro N
  induction N with
  | zero =>
    intro queue
    induction queue with
    | nil =>
      intro inDeg tasks processed _
      exact ⟨0, (tasks, processed, inDeg), rfl⟩
    | cons taskId rest ihq =>
      intro inDeg tasks processed hm
      obtain ⟨f, out, hf⟩ := ihq inDeg tasks processed hm
      by_cases hmem : taskId ∈ processed
      · exact ⟨f + 1, out, by
          rw [kahnLoop_skip_processed wd planStart today revD f taskId rest inDeg tasks
            processed hmem]
          exact hf⟩
      · rcases hlk : lookupTask tasks taskId with _ | task
        · exact ⟨f + 1, out, by
            rw [kahnLoop_skip_missing wd planStart today revD f taskId rest inDeg tasks
              processed hmem hlk]
            exact hf⟩
        · exfalso
          have hid : taskId ∈ idsOf tasks := lookupTask_isSome_iff.mp (by rw [hlk]; rfl)
          have hpos : 0 < measureU tasks processed := by
            unfold measureU
            have : taskId ∈ (idsOf tasks).filter (fun id => id ∉ processed) :=
              List.mem_filter.mpr ⟨hid, by simpa using hmem⟩
            exact List.length_pos.mpr (fun he => by rw [he] at this; cases this)
          omega
  | succ N ihN =>
    intro queue
    induction queue with
    | nil =>
      intro inDeg tasks processed _
      exact ⟨0, (tasks, processed, inDeg), rfl⟩
    | cons taskId rest ihq =>
      intro inDeg tasks processed hm
      by_cases hmem : taskId ∈ processed
      · obtain ⟨f, out, hf⟩ := ihq inDeg tasks processed hm
        exact ⟨f + 1, out, by
          rw [kahnLoop_skip_processed wd planStart today revD f taskId rest inDeg tasks
            processed hmem]
          exact hf⟩
      · rcases hlk : lookupTask tasks taskId with _ | task
        · obtain ⟨f, out, hf⟩ := ihq inDeg tasks processed hm
          exact ⟨f + 1, out, by
            rw [kahnLoop_skip_missing wd planStart today revD f taskId rest inDeg tasks
              processed hmem hlk]
            exact hf⟩
        · obtain ⟨f0, task', hcalc⟩ :=
            calcTaskDates_total wd hwd planStart today tasks task
          have hid : taskId ∈ idsOf tasks := lookupTask_isSome_iff.mp (by rw [hlk]; rfl)
          have hmeas : measureU (updateTask tasks task') (processed ++ [taskId]) ≤ N := by
            have := measureU_lt tasks task' processed taskId hid hmem
            omega
          obtain ⟨f1, out, hf1⟩ := ihN
            (stepDependents inDeg rest (lookupR revD taskId)).2
            (stepDependents inDeg rest (lookupR revD taskId)).1
            (updateTask tasks task') (processed ++ [taskId]) hmeas
          refine ⟨max f0 f1 + 1, out, ?_⟩
          have hcalc' : calcTaskDates wd planStart today tasks task (max f0 f1) =
              some task' :=
            calcTaskDates_mono wd planStart today tasks task f0 (max f0 f1) task' hcalc
              (Nat.le_max_left f0 f1)
          rw [kahnLoop_step_eq wd planStart today revD (max f0 f1) taskId rest inDeg
            tasks processed task task' hmem hlk hcalc']
          exact kahnLoop_mono wd planStart today revD f1
            (stepDependents inDeg rest (lookupR revD taskId)).2
            (stepDependents inDeg rest (lookupR revD taskId)).1
            (updateTask tasks task') (processed ++ [taskId]) out (max f0 f1)
            (Nat.le_max_right f0 f1) hf1

/-! ## Full-state invariant of the scheduling loop -/

/-- Analogue of `kahnLoop_inv` that also tracks the queue and the
in-degree dict. -/
theorem kahnLoop_inv_full (wd : List Int) (planStart : Option Int) (today : Int)
    (revD : List (String × List String))
    (Inv : List String → List (String × Int) → List Task → List String → Prop)
    (hskip : ∀ (taskId : String) (rest : List String) (inDeg : List (String × Int))
      (tasks : List Task) (processed : List String),
      Inv (taskId :: rest) inDeg tasks processed →
      (taskId ∈ processed ∨ lookupTask tasks taskId = none) →
      Inv rest inDeg tasks processed)
    (hstep : ∀ (fuel : Nat) (taskId : String) (rest : List String)
      (inDeg : List (String × Int)) (tasks : List Task) (processed : List String)
      (task task' : Task),
      Inv (taskId :: rest) inDeg tasks processed → taskId ∉ processed →
      lookupTask tasks taskId = some task →
      calcTaskDates wd planStart today tasks task fuel = some task' →
      Inv (stepDependents inDeg rest (lookupR revD taskId)).2
        (stepDependents inDeg rest (lookupR revD taskId)).1
        (updateTask tasks task') (processed ++ [taskId])) :
    ∀ (fuel : Nat) (queue : List String) (inDeg : List (String × Int))
      (tasks : List Task) (processed : List String)
      (out : List Task × List String × List (String × Int)),
      kahnLoop wd planStart today revD fuel queue inDeg tasks processed = some out →
      Inv queue inDeg tasks processed → Inv [] out.2.2 out.1 out.2.1 := by
  intro fuel
  induction fuel with
  | zero =>
    intro queue inDeg tasks processed out h hInv
    cases queue with
    | nil =>
      replace h : some (tasks, processed, inDeg) = some out := h
      rw [← Option.some.inj h]
      exact hInv
    | cons taskId rest => exact Option.noConfusion h
  | succ f ih =>
    intro queue inDeg tasks processed out h hInv
    cases queue with
    | nil =>
      replace h : some (tasks, processed, inDeg) = some out := h
      rw [← Option.some.inj h]
      exact hInv
    | cons taskId rest =>
      by_cases hmem : taskId ∈ processed
      · rw [kahnLoop_skip_processed wd planStart today revD f taskId rest inDeg tasks
          processed hmem] at h
        exact ih rest inDeg tasks processed out h
          (hskip taskId rest inDeg tasks processed hInv (Or.inl hmem))
      · rcases hlk : lookupTask tasks taskId with _ | task
        · rw [kahnLoop_skip_missing wd planStart today revD f taskId rest inDeg tasks
            processed hmem hlk] at h
          exact ih rest inDeg tasks processed out h
            (hskip taskId rest inDeg tasks processed hInv (Or.inr hlk))
        · replace h : (if taskId ∈ processed then
              kahnLoop wd planStart today revD f rest inDeg tasks processed
            else
              match lookupTask tasks taskId with
              | none => kahnLoop wd planStart today revD f rest inDeg tasks processed
              | some task =>
                match calcTaskDates wd planStart today tasks task f with
                | none => none
                | some task' =>
                  let upd := stepDependents inDeg rest (lookupR revD taskId)
                  kahnLoop wd planStart today revD f upd.2 upd.1
                    (updateTask tasks task') (processed ++ [taskId])) = some out := h
          rw [if_neg hmem, hlk] at h
          replace h : (match calcTaskDates wd planStart today tasks task f with
            | none => none
            | some task' =>
              let upd := stepDependents inDeg rest (lookupR revD taskId)
              kahnLoop wd planStart today revD f upd.2 upd.1
                (updateTask tasks task') (processed ++ [taskId])) = some out := h
          rcases hcalc : calcTaskDates wd planStart today tasks task f with _ | task'
          · rw [hcalc] at h
            exact Option.noConfusion h
          · rw [hcalc] at h
            replace h : kahnLoop wd planStart today revD f
                (stepDependents inDeg rest (lookupR revD taskId)).2
                (stepDependents inDeg rest (lookupR revD taskId)).1
                (updateTask tasks task') (processed ++ [taskId]) = some out := h
            exact ih _ _ _ _ out h
              (hstep f taskId rest inDeg tasks processed task task' hInv hmem hlk hcalc)

/-! ## Schedulability (`Done`) lemmas -/

/-- With unique ids, two member tasks with the same id coincide. -/
theorem eq_of_mem_of_id {tasks : List Task} (hnd : (idsOf tasks).Nodup)
    {t u : Task} (ht : t ∈ tasks) (hu : u ∈ tasks) (he : t.id = u.id) : t = u := by
  have h1 := lookupTask_of_mem tasks t hnd ht
  have h2 := lookupTask_of_mem tasks u hnd hu
  rw [he] at h1
  rw [h1] at h2
  exact Option.some.inj h2

/-- No member of a cycle set is ever schedulable. -/
theorem cycleSet_not_done {tasks : List Task} {S : List String}
    (hnd : (idsOf tasks).Nodup) (hS : CycleSet tasks S) :
    ∀ id ∈ S, ¬ Done tasks id := by
  have key : ∀ id, Done tasks id → id ∉ S := by
    intro id hdone
    induction hdone with
    | step id t hlk hndd hdeps ih =>
      intro hmem
      obtain ⟨u, hu, huid, d, hd, hdS⟩ := hS.2 id hmem
      have ht := lookupTask_mem hlk
      have hut : u = t := eq_of_mem_of_id hnd hu ht.1 (by rw [huid, ht.2])
      have hd' : d ∈ t.dependencies := by rw [← hut]; exact hd
      exact ih d hd' hdS
  exact fun id hid hdone => key id hdone hid

/-- `lookupTask` only depends on the task multiset once ids are unique. -/
theorem lookupTask_perm {tasks tasks2 : List Task} (hperm : tasks2.Perm tasks)
    (hnd : (idsOf tasks).Nodup) (id : String) :
    lookupTask tasks2 id = lookupTask tasks id := by
  have hnd2 : (idsOf tasks2).Nodup := (List.Perm.nodup_iff (hperm.map Task.id)).mpr hnd
  rcases hlt : lookupTask tasks id with _ | t
  · rcases hlt2 : lookupTask tasks2 id with _ | u
    · rfl
    · exfalso
      have hu := lookupTask_mem hlt2
      have hsome : lookupTask tasks u.id = some u :=
        lookupTask_of_mem tasks u hnd (hperm.mem_iff.mp hu.1)
      rw [hu.2, hlt] at hsome
      exact Option.noConfusion hsome
  · have ht := lookupTask_mem hlt
    have hsome : lookupTask tasks2 t.id = some t :=
      lookupTask_of_mem tasks2 t hnd2 (hperm.mem_iff.mpr ht.1)
    rw [ht.2] at hsome
    exact hsome

/-- Schedulability is invariant under permuting the task list. -/
theorem done_perm {tasks tasks2 : List Task} (hperm : tasks2.Perm tasks)
    (hnd : (idsOf tasks).Nodup) :
    ∀ id, Done tasks id → Done tasks2 id := by
  intro id h
  induction h with
  | step id t hlk hndd hdeps ih =>
    exact Done.step id t (by rw [lookupTask_perm hperm hnd]; exact hlk) hndd ih

/-! ## What the Kahn pass processes: exactly the schedulable tasks -/

/-- Whenever the `while queue:` loop of `calculate_dates` returns on a
valid plan, the processed ids are exactly the `Done` ids, the task list
keeps its id sequence, and every unprocessed task keeps its original
record (the run never writes to it). -/
theorem kahnRun_processed_iff_done (plan : ProjectPlan) (today : Int) (fuel : Nat)
    (tasks' : List Task) (processed : List String) (inDeg' : List (String × Int))
    (hv : ValidPlan plan)
    (hrun : kahnRun (initProcessor plan) today fuel = some (tasks', processed, inDeg')) :
    (∀ id, id ∈ processed ↔ Done plan.tasks id) ∧
    idsOf tasks' = idsOf plan.tasks ∧
    (∀ t ∈ plan.tasks, t.id ∉ processed → lookupTask tasks' t.id = some t) := by
  have hnd := hv.1
  have hJ := kahnLoop_inv_full plan.working_days plan.start_date today
    (revGraph plan.tasks)
    (fun queue inDeg tasks proc =>
      idsOf tasks = idsOf plan.tasks ∧
      proc.Nodup ∧
      (∀ id ∈ proc, Done plan.tasks id) ∧
      inDeg.map Prod.fst = idsOf plan.tasks ∧
      (∀ id ∈ idsOf plan.tasks, lookupD inDeg id =
        ((depsOf plan.tasks id).length : Int) -
          (((depsOf plan.tasks id).dedup.filter (fun d => d ∈ proc)).length : Int)) ∧
      (∀ q ∈ queue, q ∈ idsOf plan.tasks ∧ (depsOf plan.tasks q).Nodup ∧
        ∀ d ∈ depsOf plan.tasks q, d ∈ proc) ∧
      (∀ id ∈ idsOf plan.tasks, lookupD inDeg id = 0 → id ∈ proc ∨ id ∈ queue))
    (by
      intro taskId rest inDeg tasks proc hInv hcase
      obtain ⟨J1, J2, J3, J4, J5, J6, J7⟩ := hInv
      refine ⟨J1, J2, J3, J4, J5,
        fun q hq => J6 q (List.mem_cons_of_mem taskId hq), ?_⟩
      intro id hid h0
      rcases J7 id hid h0 with h1 | h2
      · exact Or.inl h1
      · rcases List.mem_cons.mp h2 with rfl | h3
        · rcases hcase with hmem | hnone
          · exact Or.inl hmem
          · exfalso
            have hsome : (lookupTask tasks id).isSome = true := by
              rw [lookupTask_isSome_iff, J1]
              exact (J6 id (List.mem_cons_self id rest)).1
            rw [hnone] at hsome
            exact Bool.noConfusion hsome
        · exact Or.inr h3)
    (by
      intro f taskId rest inDeg tasks proc task task' hInv hni hlk hcalc
      obtain ⟨J1, J2, J3, J4, J5, J6, J7⟩ := hInv
      have hqhead := J6 taskId (List.mem_cons_self taskId rest)
      have hid0 : taskId ∈ idsOf plan.tasks := hqhead.1
      have hrevd : lookupR (revGraph plan.tasks) taskId = revDepsOf plan.tasks taskId :=
        lookupR_revGraph plan.tasks taskId hid0
      have hndrev : (revDepsOf plan.tasks taskId).Nodup :=
        revDepsOf_nodup plan.tasks hnd taskId
      have hkeysrev : ∀ d ∈ revDepsOf plan.tasks taskId, d ∈ inDeg.map Prod.fst := by
        intro d hd
        rw [J4]
        exact ((mem_revDepsOf_iff_deps plan.tasks hnd taskId d).mp hd).1
      have hdeg : ∀ x,
          lookupD (stepDependents inDeg rest (lookupR (revGraph plan.tasks) taskId)).1 x =
          if x ∈ revDepsOf plan.tasks taskId then lookupD inDeg x - 1
          else lookupD inDeg x := by
        intro x
        rw [hrevd]
        exact stepDependents_deg (revDepsOf plan.tasks taskId) inDeg rest x hndrev hkeysrev
      have hque : (stepDependents inDeg rest (lookupR (revGraph plan.tasks) taskId)).2 =
          rest ++ (revDepsOf plan.tasks taskId).filter
            (fun d => lookupD inDeg d - 1 = 0) := by
        rw [hrevd]
        exact stepDependents_queue (revDepsOf plan.tasks taskId) inDeg rest hndrev hkeysrev
      have htaskId_done : Done plan.tasks taskId := by
        obtain ⟨t0, hlk0⟩ : ∃ t0, lookupTask plan.tasks taskId = some t0 := by
          have hs := lookupTask_isSome_iff.mpr hid0
          rcases hl : lookupTask plan.tasks taskId with _ | t0
          · rw [hl] at hs
            exact Bool.noConfusion hs
          · exact ⟨t0, rfl⟩
        have hdeps0 : depsOf plan.tasks taskId = t0.dependencies := by
          unfold depsOf
          rw [hlk0]
        refine Done.step taskId t0 hlk0 ?_ ?_
        · rw [← hdeps0]
          exact hqhead.2.1
        · intro d hd
          have hd' : d ∈ depsOf plan.tasks taskId := by
            rw [hdeps0]
            exact hd
          exact J3 d (hqhead.2.2 d hd')
      refine ⟨?_, ?_, ?_, ?_, ?_, ?_, ?_⟩
      · rw [idsOf_updateTask]
        exact J1
      · exact nodup_append_singleton J2 hni
      · intro id hidp
        rcases List.mem_append.mp hidp with h1 | h2
        · exact J3 id h1
        · rw [List.mem_singleton] at h2
          subst h2
          exact htaskId_done
      · rw [stepDependents_keys]
        exact J4
      · intro id hid
        rw [hdeg id]
        have hold := J5 id hid
        have hcnt := count_filter_append proc taskId hni
          ((depsOf plan.tasks id).dedup) (List.nodup_dedup _)
        by_cases hmemrev : id ∈ revDepsOf plan.tasks taskId
        · have htin : taskId ∈ depsOf plan.tasks id :=
            ((mem_revDepsOf_iff_deps plan.tasks hnd taskId id).mp hmemrev).2
          rw [if_pos hmemrev, hold, hcnt, if_pos (List.mem_dedup.mpr htin)]
          push_cast
          ring
        · have hnotdep : taskId ∉ depsOf plan.tasks id := fun hc =>
            hmemrev ((mem_revDepsOf_iff_deps plan.tasks hnd taskId id).mpr ⟨hid, hc⟩)
          rw [if_neg hmemrev, hold, hcnt,
            if_neg (fun hc => hnotdep (List.mem_dedup.mp hc))]
          push_cast
          ring
      · intro q hq
        rw [hque] at hq
        rcases List.mem_append.mp hq with hq1 | hq2
        · obtain ⟨ha, hb, hc⟩ := J6 q (List.mem_cons_of_mem taskId hq1)
          exact ⟨ha, hb, fun d hd => List.mem_append_left _ (hc d hd)⟩
        · rw [List.mem_filter] at hq2
          obtain ⟨hqrev, hqdeg⟩ := hq2
          have hqiff := (mem_revDepsOf_iff_deps plan.tasks hnd taskId q).mp hqrev
          have hqid : q ∈ idsOf plan.tasks := hqiff.1
          have htq : taskId ∈ depsOf plan.tasks q := hqiff.2
          have hdegq : lookupD inDeg q - 1 = 0 := by simpa using hqdeg
          have hold := J5 q hqid
          have hc1 : (((depsOf plan.tasks q).dedup.filter
              (fun d => d ∈ proc)).length : Int) =
              ((depsOf plan.tasks q).length : Int) - 1 := by
            rw [hold] at hdegq
            omega
          have hle2 : (depsOf plan.tasks q).dedup.length ≤ (depsOf plan.tasks q).length :=
            List.Sublist.length_le (List.dedup_sublist _)
          have hcnt := count_filter_append proc taskId hni
            ((depsOf plan.tasks q).dedup) (List.nodup_dedup _)
          rw [if_pos (List.mem_dedup.mpr htq)] at hcnt
          have hle3 : ((depsOf plan.tasks q).dedup.filter
              (fun d => d ∈ proc ++ [taskId])).length ≤
              (depsOf plan.tasks q).dedup.length :=
            List.length_filter_le _ _
          have hcnt' : ((depsOf plan.tasks q).dedup.filter
              (fun d => d ∈ proc ++ [taskId])).length =
              (depsOf plan.tasks q).length := by omega
          have hddL : (depsOf plan.tasks q).dedup.length =
              (depsOf plan.tasks q).length := by omega
          have hdd_eq : (depsOf plan.tasks q).dedup = depsOf plan.tasks q :=
            List.Sublist.eq_of_length (List.dedup_sublist _) hddL
          have hnodup_q : (depsOf plan.tasks q).Nodup := by
            rw [← hdd_eq]
            exact List.nodup_dedup _
          have hfilter_eq : (depsOf plan.tasks q).dedup.filter
              (fun d => d ∈ proc ++ [taskId]) = (depsOf plan.tasks q).dedup :=
            List.Sublist.eq_of_length (List.filter_sublist _) (by rw [hcnt', hddL])
          refine ⟨hqid, hnodup_q, ?_⟩
          intro d hd
          have hd' : d ∈ (depsOf plan.tasks q).dedup := by
            rw [hdd_eq]
            exact hd
          have hdf : d ∈ (depsOf plan.tasks q).dedup.filter
              (fun d => d ∈ proc ++ [taskId]) := by
            rw [hfilter_eq]
            exact hd'
          rw [List.mem_filter] at hdf
          simpa using hdf.2
      · intro id hid h0
        rw [hdeg id] at h0
        by_cases hmemrev : id ∈ revDepsOf plan.tasks taskId
        · rw [if_pos hmemrev] at h0
          right
          rw [hque]
          exact List.mem_append_right _
            (List.mem_filter.mpr ⟨hmemrev, by simpa using h0⟩)
        · rw [if_neg hmemrev] at h0
          rcases J7 id hid h0 with h1 | h2
          · exact Or.inl (List.mem_append_left _ h1)
          · rcases List.mem_cons.mp h2 with rfl | h3
            · exact Or.inl (List.mem_append_right _ (List.mem_singleton.mpr rfl))
            · refine Or.inr ?_
              rw [hque]
              exact List.mem_append_left _ h3)
    fuel (queueInit (initProcessor plan)) (initialInDeg plan.tasks) plan.tasks []
    (tasks', processed, inDeg') hrun
    (by
      refine ⟨rfl, List.nodup_nil, by simp, initialInDeg_keys plan.tasks, ?_, ?_, ?_⟩
      · intro id hid
        rw [lookupD_initialInDeg]
        have hfil : (depsOf plan.tasks id).dedup.filter
            (fun d => d ∈ ([] : List String)) = [] := by
          simp
        rw [hfil]
        simp
      · intro q hq
        unfold queueInit at hq
        obtain ⟨entry, hent, hfst⟩ := List.mem_map.mp hq
        rw [List.mem_filter] at hent
        obtain ⟨hent1, hent2⟩ := hent
        have hent1' : entry ∈ initialInDeg plan.tasks := hent1
        unfold initialInDeg at hent1'
        obtain ⟨t, ht, hte⟩ := List.mem_map.mp hent1'
        have hqid_eq : q = t.id := by
          rw [← hfst, ← hte]
        subst hqid_eq
        have hlen0 : (t.dependencies.length : Int) = 0 := by
          have h2 : entry.2 = 0 := by simpa using hent2
          rw [← hte] at h2
          exact h2
        have hlen0' : t.dependencies.length = 0 := by exact_mod_cast hlen0
        have hdeps_nil : t.dependencies = [] := List.length_eq_zero.mp hlen0'
        have hdeps : depsOf plan.tasks t.id = t.dependencies := by
          unfold depsOf
          rw [lookupTask_of_mem plan.tasks t hnd ht]
        refine ⟨List.mem_map.mpr ⟨t, ht, rfl⟩, ?_, ?_⟩
        · rw [hdeps, hdeps_nil]
          exact List.nodup_nil
        · intro d hd
          rw [hdeps, hdeps_nil] at hd
          cases hd
      · intro id hid h0
        right
        rw [lookupD_initialInDeg] at h0
        unfold idsOf at hid
        obtain ⟨t, ht, hid_eq⟩ := List.mem_map.mp hid
        subst hid_eq
        have hdeps : depsOf plan.tasks t.id = t.dependencies := by
          unfold depsOf
          rw [lookupTask_of_mem plan.tasks t hnd ht]
        rw [hdeps] at h0
        unfold queueInit
        apply List.mem_map.mpr
        refine ⟨(t.id, (t.dependencies.length : Int)), ?_, rfl⟩
        rw [List.mem_filter]
        refine ⟨?_, by simpa using h0⟩
        exact List.mem_map.mpr ⟨t, ht, rfl⟩)
  obtain ⟨J1, J2, J3, J4, J5, J6, J7⟩ := hJ
  have hcomplete : ∀ id, Done plan.tasks id → id ∈ processed := by
    intro id h
    induction h with
    | step id t hlk hndd hdeps ih =>
      have hid0 : id ∈ idsOf plan.tasks := lookupTask_isSome_iff.mp (by rw [hlk]; rfl)
      have hdepsOf : depsOf plan.tasks id = t.dependencies := by
        unfold depsOf
        rw [hlk]
      have hdd : (depsOf plan.tasks id).dedup = depsOf plan.tasks id :=
        List.dedup_eq_self.mpr (by rw [hdepsOf]; exact hndd)
      have hfil : (depsOf plan.tasks id).dedup.filter (fun d => d ∈ processed) =
          (depsOf plan.tasks id).dedup := by
        apply List.filter_eq_self.mpr
        intro d hd
        have hd2 : d ∈ t.dependencies := by
          rw [← hdepsOf]
          exact List.mem_dedup.mp hd
        simpa using ih d hd2
      have h0 : lookupD inDeg' id = 0 := by
        rw [J5 id hid0, hfil, hdd]
        exact sub_self _
      rcases J7 id hid0 h0 with h1 | h2
      · exact h1
      · cases h2
  have huntouched := kahnLoop_inv plan.working_days plan.start_date today
    (revGraph plan.tasks)
    (fun tasks proc => ∀ t ∈ plan.tasks, t.id ∉ proc → lookupTask tasks t.id = some t)
    (by
      intro f tasks proc taskId task task' hInv hnotin hlk hcalc
      have htid : task'.id = taskId := by
        rw [(calcTaskDates_fields _ _ _ _ _ _ _ hcalc).1, (lookupTask_mem hlk).2]
      intro t ht hnp
      have hnp1 : t.id ∉ proc := fun hc => hnp (List.mem_append_left _ hc)
      have hnp2 : t.id ≠ taskId := fun hc =>
        hnp (List.mem_append_right _ (List.mem_singleton.mpr hc))
      rw [lookupTask_updateTask, if_neg (by rw [htid]; exact hnp2)]
      exact hInv t ht hnp1)
    fuel (queueInit (initProcessor plan)) (initialInDeg plan.tasks) plan.tasks []
    (tasks', processed, inDeg') hrun
    (fun t ht _ => lookupTask_of_mem plan.tasks t hnd ht)
  exact ⟨fun id => ⟨J3 id, hcomplete id⟩, J1, huntouched⟩

/-! ## Unpacking the non-divergent outcomes of `calculate_dates` -/

theorem calculateDates_run_of_ne_diverge (p : Processor) (today : Int) (fuel : Nat)
    (h : (p.calculateDates today fuel).1 ≠ .diverge) :
    ∃ out, kahnRun p today fuel = some out := by
  unfold Processor.calculateDates at h
  rcases hrun : kahnRun p today fuel with _ | out
  · rw [hrun] at h
    exact absurd rfl h
  · exact ⟨out, rfl⟩

theorem calculateDates_cycle_intro (p : Processor) (today : Int) (fuel : Nat)
    (tasks' : List Task) (processed : List String) (inDeg' : List (String × Int))
    (hrun : kahnRun p today fuel = some (tasks', processed, inDeg'))
    (hlen : processed.length ≠ p.plan.tasks.length) :
    (p.calculateDates today fuel).1 =
      .cycleError ((tasks'.map (fun t => t.id)).filter (fun id => id ∉ processed)) := by
  unfold Processor.calculateDates
  rw [hrun]
  show ((if processed.length = p.plan.tasks.length then
      ((RunResult.ok (calcProjectDates { p.plan with tasks := tasks' })),
       ({ plan := calcProjectDates { p.plan with tasks := tasks' },
          inDeg := inDeg', revD := p.revD } : Processor))
    else
      ((RunResult.cycleError
          ((tasks'.map (fun t => t.id)).filter (fun id => id ∉ processed))),
       ({ plan := { p.plan with tasks := tasks' },
          inDeg := inDeg', revD := p.revD } : Processor))).1) =
    RunResult.cycleError ((tasks'.map (fun t => t.id)).filter (fun id => id ∉ processed))
  rw [if_neg hlen]

/-! ## Divergence on an empty working-day list -/

/-- With an empty working-day list, `_add_working_days` with a positive
count never exits (`remaining_days` is never decremented). -/
theorem addWorkingDaysF_nil_pos (r : Int) (hr : 0 < r) :
    ∀ (fuel : Nat) (d : Int), addWorkingDaysF [] d r fuel = none := by
  intro fuel
  induction fuel with
  | zero =>
    intro d
    rw [addWorkingDaysF_eq, if_neg (by omega)]
  | succ f ih =>
    intro d
    rw [addWorkingDaysF_eq, if_neg (by omega)]
    show addWorkingDaysF [] (d + 1)
      (if weekday (d + 1) ∈ ([] : List Int) then r - 1 else r) f = none
    rw [if_neg (List.not_mem_nil _)]
    exact ih (d + 1)

/-- With an empty working-day list, `_calculate_task_dates` never
returns on a dependency-free task carrying a start date and duration 2
(the end-date derivation calls `_add_working_days(start, 1)`). -/
theorem calcTaskDates_nil_start (fuel : Nat) (tasks : List Task)
    (planStart : Option Int) (today : Int) :
    calcTaskDates [] planStart today tasks
      (mkTask "V" [] (some 738886) none (some 2) false) fuel = none := by
  unfold calcTaskDates
  rw [depStartStep_empty [] tasks _ fuel rfl]
  show ((addWorkingDaysF [] 738886 (2 - 1) fuel).map
      (fun e => { mkTask "V" [] (some 738886) none (some 2) false with
        end_date := some e })).bind
      (fun t3 => fallbackStep [] planStart today t3 fuel) = none
  rw [addWorkingDaysF_nil_pos (2 - 1) (by norm_num) fuel 738886]
  rfl

/-! ## Claim C2: cycle detection -/

/-- C2 counterexample: the claimed "cycle ⇒ cycle error" fails without a
termination proviso.  `c2CexPlan` has the cycle `A ↔ B`, but its
working-day list is empty and its datable task V is dequeued first, so
`calculate_dates` hangs in `_add_working_days` and the cycle error is
never raised, whatever the fuel. -/
theorem c2_counterexample :
    CycleSet c2CexPlan.tasks ["A", "B"] ∧ DivergesForAllFuel c2CexPlan 0 := by
  constructor
  · exact ⟨by decide, by decide⟩
  · intro fuel
    show ((initProcessor c2CexPlan).calculateDates 0 fuel).1 = .diverge
    unfold Processor.calculateDates
    suffices h : kahnRun (initProcessor c2CexPlan) 0 fuel = none by rw [h]
    cases fuel with
    | zero => rfl
    | succ f =>
      show kahnLoop [] none 0 (revGraph c2CexPlan.tasks) (f + 1)
        (queueInit (initProcessor c2CexPlan)) (initialInDeg c2CexPlan.tasks)
        c2CexPlan.tasks [] = none
      have hq : queueInit (initProcessor c2CexPlan) = ["V"] := by decide
      rw [hq]
      exact kahnLoop_calc_none [] none 0 (revGraph c2CexPlan.tasks) f "V" []
        (initialInDeg c2CexPlan.tasks) c2CexPlan.tasks []
        (mkTask "V" [] (some 738886) none (some 2) false)
        (List.not_mem_nil "V") (by decide)
        (calcTaskDates_nil_start f c2CexPlan.tasks none 0)

set_option maxHeartbeats 1600000 in
/-- C2: on a valid plan whose dependency graph contains a cycle (witness
set `S`), whenever `calculate_dates` terminates it raises the
cycle-detection `ValueError`; the ids carried in the error are exactly
the task ids the Kahn pass left unprocessed, which include every member
of `S`; no unprocessed task has any field of its record modified by the
run; and the processed set (hence the unprocessed set) is the same for
every permutation of the task list, whatever the fuel and today-date of
the other run. -/
theorem c2_cycle_detection (plan : ProjectPlan) (today : Int) (fuel : Nat)
    (S : List String) (hv : ValidPlan plan) (hS : CycleSet plan.tasks S)
    (hterm : ((initProcessor plan).calculateDates today fuel).1 ≠ .diverge) :
    ∃ tasks' processed inDeg',
      kahnRun (initProcessor plan) today fuel = some (tasks', processed, inDeg') ∧
      ((initProcessor plan).calculateDates today fuel).1 =
        .cycleError ((tasks'.map (fun t => t.id)).filter (fun id => id ∉ processed)) ∧
      (∀ id, id ∈ (tasks'.map (fun t => t.id)).filter (fun id => id ∉ processed) ↔
        id ∈ idsOf plan.tasks ∧ id ∉ processed) ∧
      (∀ id ∈ S, id ∈ idsOf plan.tasks ∧ id ∉ processed) ∧
      (∀ t ∈ plan.tasks, t.id ∉ processed → lookupTask tasks' t.id = some t) ∧
      (∀ (plan2 : ProjectPlan) (today2 : Int) (fuel2 : Nat) (tasks2 : List Task)
        (processed2 : List String) (inDeg2 : List (String × Int)),
        plan2.tasks.Perm plan.tasks →
        kahnRun (initProcessor plan2) today2 fuel2 = some (tasks2, processed2, inDeg2) →
        ∀ id, id ∈ processed2 ↔ id ∈ processed) := by
  have hnd := hv.1
  obtain ⟨out, hrun⟩ := calculateDates_run_of_ne_diverge (initProcessor plan) today fuel hterm
  obtain ⟨tasks', processed, inDeg'⟩ := out
  obtain ⟨hchar, hids, huntouched⟩ :=
    kahnRun_processed_iff_done plan today fuel tasks' processed inDeg' hv hrun
  have hcyc : ∀ id ∈ S, id ∈ idsOf plan.tasks ∧ id ∉ processed := by
    intro s hs
    obtain ⟨t, ht, htid, -⟩ := hS.2 s hs
    have hsid : s ∈ idsOf plan.tasks := htid ▸ List.mem_map.mpr ⟨t, ht, rfl⟩
    exact ⟨hsid, fun hc => cycleSet_not_done hnd hS s hs ((hchar s).mp hc)⟩
  have hlen_ne : processed.length ≠ plan.tasks.length := by
    intro hlen
    obtain ⟨s, hs⟩ := List.exists_mem_of_ne_nil S hS.1
    have hall := kahnRun_processed_all plan today fuel tasks' processed inDeg'
      hnd hrun hlen
    have hsid' : s ∈ idsOf tasks' := by
      rw [hall.1]
      exact (hcyc s hs).1
    exact (hcyc s hs).2 (hall.2 s hsid')
  refine ⟨tasks', processed, inDeg', hrun,
    calculateDates_cycle_intro (initProcessor plan) today fuel tasks' processed inDeg'
      hrun hlen_ne, ?_, hcyc, huntouched, ?_⟩
  · intro id
    rw [List.mem_filter]
    constructor
    · rintro ⟨h1, h2⟩
      have h1' : id ∈ idsOf tasks' := h1
      rw [hids] at h1'
      exact ⟨h1', by simpa using h2⟩
    · rintro ⟨h1, h2⟩
      have h1' : id ∈ idsOf tasks' := by
        rw [hids]
        exact h1
      exact ⟨h1', by simpa using h2⟩
  · intro plan2 today2 fuel2 tasks2 processed2 inDeg2 hperm hrun2
    have hnd2 : (idsOf plan2.tasks).Nodup :=
      (List.Perm.nodup_iff (hperm.map Task.id)).mpr hnd
    have hv2 : ValidPlan plan2 := by
      refine ⟨hnd2, ?_⟩
      intro t ht d hd
      obtain ⟨u, hu, hud⟩ := hv.2 t (hperm.mem_iff.mp ht) d hd
      exact ⟨u, hperm.mem_iff.mpr hu, hud⟩
    have hchar2 := (kahnRun_processed_iff_done plan2 today2 fuel2 tasks2 processed2
      inDeg2 hv2 hrun2).1
    intro id
    rw [hchar2 id, hchar id]
    exact ⟨done_perm hperm.symm hnd2 id, done_perm hperm hnd id⟩

set_option maxHeartbeats 1600000 in
/-- C2 witness: on the spec's three-task cycle (A depends on C, B on A,
C on B), `calculate_dates` raises the cycle error naming exactly
`{A, B, C}`. -/
theorem c2_witness :
    ((initProcessor c2WitnessPlan).calculateDates 0 40).1 =
      .cycleError ["A", "B", "C"] := by
  obtain ⟨tasks', processed, inDeg', hrun, herr, -, -, -, -⟩ :=
    c2_cycle_detection c2WitnessPlan 0 40 ["A", "B", "C"]
      ⟨by decide, by decide⟩ ⟨by decide, by decide⟩ (by decide)
  have hconc : kahnRun (initProcessor c2WitnessPlan) 0 40 =
      some (c2WitnessPlan.tasks, [], initialInDeg c2WitnessPlan.tasks) := by decide
  have heq := Option.some.inj (hrun.symm.trans hconc)
  rw [Prod.mk.injEq, Prod.mk.injEq] at heq
  obtain ⟨ht, hp, hdg⟩ := heq
  subst ht
  subst hp
  rw [herr]
  decide

/-! ## Claim C8: termination -/

/-- C8 counterexample: `calculate_dates` does *not* terminate for every
plan.  On `c8Plan` (one datable task, empty working-day list) the
`while remaining_days > 0:` loop of `_add_working_days` never exits,
whatever the fuel. -/
theorem c8_counterexample : DivergesForAllFuel c8Plan 0 := by
  intro fuel
  show ((initProcessor c8Plan).calculateDates 0 fuel).1 = .diverge
  unfold Processor.calculateDates
  suffices h : kahnRun (initProcessor c8Plan) 0 fuel = none by rw [h]
  cases fuel with
  | zero => rfl
  | succ f =>
    show kahnLoop [] none 0 (revGraph c8Plan.tasks) (f + 1)
      (queueInit (initProcessor c8Plan)) (initialInDeg c8Plan.tasks)
      c8Plan.tasks [] = none
    have hq : queueInit (initProcessor c8Plan) = ["V"] := by decide
    rw [hq]
    exact kahnLoop_calc_none [] none 0 (revGraph c8Plan.tasks) f "V" []
      (initialInDeg c8Plan.tasks) c8Plan.tasks []
      (mkTask "V" [] (some 738886) none (some 2) false)
      (List.not_mem_nil "V") (by decide)
      (calcTaskDates_nil_start f c8Plan.tasks none 0)

/-- C8: when the working-day list contains a usable weekday — the only
way the stepping loops of `_add_working_days` / `_subtract_working_days`
can exit — `calculate_dates` terminates on every plan (some fuel makes
the model return), and the topological pass visits each task at most
once (the processed id list of any returning Kahn pass is
duplicate-free). -/
theorem c8_termination (plan : ProjectPlan) (today : Int)
    (hwd : HasValidWorkingDay plan.working_days) :
    (∃ fuel, ((initProcessor plan).calculateDates today fuel).1 ≠ RunResult.diverge) ∧
    ∀ (fuel : Nat) (tasks' : List Task) (processed : List String)
      (inDeg' : List (String × Int)),
      kahnRun (initProcessor plan) today fuel = some (tasks', processed, inDeg') →
      processed.Nodup := by
  constructor
  · obtain ⟨f, out, hf⟩ := kahnLoop_total plan.working_days plan.start_date today
      (revGraph plan.tasks) hwd (measureU plan.tasks [])
      (queueInit (initProcessor plan)) (initialInDeg plan.tasks) plan.tasks []
      (Nat.le_refl _)
    refine ⟨f, ?_⟩
    unfold Processor.calculateDates
    have hrun : kahnRun (initProcessor plan) today f = some out := hf
    rw [hrun]
    obtain ⟨tasks', processed, inDeg'⟩ := out
    show ((if processed.length = plan.tasks.length then
        ((RunResult.ok (calcProjectDates { plan with tasks := tasks' })),
         ({ plan := calcProjectDates { plan with tasks := tasks' },
            inDeg := inDeg', revD := revGraph plan.tasks } : Processor))
      else
        ((RunResult.cycleError
            ((tasks'.map (fun t => t.id)).filter (fun id => id ∉ processed))),
         ({ plan := { plan with tasks := tasks' },
            inDeg := inDeg', revD := revGraph plan.tasks } : Processor))).1) ≠
      RunResult.diverge
    by_cases hlen : processed.length = plan.tasks.length
    · rw [if_pos hlen]
      exact fun hc => RunResult.noConfusion hc
    · rw [if_neg hlen]
      exact fun hc => RunResult.noConfusion hc
  · intro fuel tasks' processed inDeg' hrun
    exact (kahnRun_ids_inv plan today fuel tasks' processed inDeg' hrun).2.1

/-- C8 witness: the Monday–Friday calendar has a usable weekday, and on
the one-task plan `c9Plan` the run indeed terminates. -/
theorem c8_witness :
    HasValidWorkingDay c9Plan.working_days ∧
    ∃ fuel, ((initProcessor c9Plan).calculateDates 0 fuel).1 ≠ RunResult.diverge :=
  ⟨⟨0, by decide, by decide⟩, (c8_termination c9Plan 0 ⟨0, by decide, by decide⟩).1⟩

end TaskWeaver
